import Mathlib

/-!
# WAV sample source (`sound_from_file.cpp`) and microphone source (`sound_from_mic.cpp`)

A shallow embedding of the two `get_sample` adapters.

* A `FILE*` is a byte sequence together with a cursor (`FILE`).  `fread` transfers
  as many of the requested bytes as are left after the cursor and advances the
  cursor by that amount; `fseek(.., SEEK_CUR)` moves the cursor by a signed offset
  and may place it past the end of the file.
* The `CHECK` macro terminates the process (`_exit(1)`); a terminated run is
  `Res.fatal`.
* The `while(true)` loop of `readHeader` is run with an iteration budget; a run
  that uses the budget up is `Res.outOfFuel`.  `readHeader` uses the budget
  `length / 8 + 1`, which `readHeaderLoop_fuel_ok` shows is never used up, and
  `readHeaderLoop_fuel_mono` shows that any larger budget gives the same result.
* Machine integers are `Nat`/`Int`; conversions that can wrap are written out
  (`toInt32`, `toUInt32`, `toSizeT`).  Multi-byte reads are little-endian, as on the
  machines the source is written for ("no endian-swap for now").
* `long` and `size_t` are 64 bits wide (LP64), so the `uint32_t` chunk length is
  passed to `fseek` unchanged.
* The returned `float` is represented by the exact rational value of the C
  expression `samples[0]*1.0/32767`; rounding to binary floating point is not
  modelled.  The `double` time argument is likewise a rational; it is never read.
* `printf` diagnostics are not modelled.
-/

namespace SoundFromFile

/-- One octet of the file. -/
abbrev Byte := Fin 256

/-- Outcome of running a part of the program. -/
inductive Res (α : Type) where
  /-- normal return -/
  | ok (a : α)
  /-- a `CHECK` failed: the process was terminated by `_exit(1)` -/
  | fatal
  /-- the iteration budget of a loop was used up -/
  | outOfFuel
  deriving DecidableEq

/-- Sequencing of fallible steps: a failed step ends the run. -/
def Res.bind {α β : Type} : Res α → (α → Res β) → Res β
  | .ok a, k => k a
  | .fatal, _ => .fatal
  | .outOfFuel, _ => .outOfFuel

instance : Monad Res where
  pure := Res.ok
  bind := Res.bind

/-- The macro `CHECK(x)`: continue when `x` holds, otherwise `_exit(1)`. -/
def CHECK (x : Prop) [Decidable x] : Res Unit :=
  if x then .ok () else .fatal

/-- An open stream: the bytes of the file and the read cursor. -/
structure FILE where
  data : List Byte
  pos : Nat
  deriving DecidableEq

/-- The bytes from the cursor to the end of the file. -/
def FILE.rest (f : FILE) : List Byte := f.data.drop f.pos

/-- The C library call `fread(buf, size, nmemb, f)`: the bytes transferred into `buf`, the number
of complete items (the return value), and the stream with its cursor advanced by
the bytes transferred. -/
def fread (size nmemb : Nat) (f : FILE) : List Byte × Nat × FILE :=
  let got := (f.data.drop f.pos).take (size * nmemb)
  (got, got.length / size, { f with pos := f.pos + got.length })

/-- The C library call `fseek(f, offset, SEEK_CUR)`: the return value and the stream.  Seeking past
the end of the file succeeds; seeking before its start fails and leaves the cursor. -/
def fseek (f : FILE) (offset : Int) : Int × FILE :=
  if 0 ≤ (f.pos : Int) + offset then
    (0, { f with pos := ((f.pos : Int) + offset).toNat })
  else
    (-1, f)

/-- Value of a little-endian byte string. -/
def leValue : List Byte → Nat
  | [] => 0
  | b :: bs => b.val + 256 * leValue bs

/-- Conversion of an unsigned 32-bit value to `int`. -/
def toInt32 (v : Nat) : Int :=
  if v % 2 ^ 32 < 2 ^ 31 then ((v % 2 ^ 32 : Nat) : Int) else ((v % 2 ^ 32 : Nat) : Int) - 2 ^ 32

/-- Conversion of an `int` to `uint32_t` (the usual arithmetic conversion in a
comparison with a `uint32_t`). -/
def toUInt32 (i : Int) : Nat := (i % 2 ^ 32).toNat

/-- Conversion of an `int` to `size_t`. -/
def toSizeT (i : Int) : Nat := (i % 2 ^ 64).toNat

/-- Conversion of an unsigned 16-bit value to `int16_t`. -/
def toInt16 (v : Nat) : Int :=
  if v % 2 ^ 16 < 2 ^ 15 then ((v % 2 ^ 16 : Nat) : Int) else ((v % 2 ^ 16 : Nat) : Int) - 2 ^ 16

/-- The string literal "RIFF". -/
def strRIFF : List Byte := [82, 73, 70, 70]
/-- The string literal "WAVE". -/
def strWAVE : List Byte := [87, 65, 86, 69]
/-- The string literal "fmt " (with its trailing blank). -/
def strFmt : List Byte := [102, 109, 116, 32]
/-- The string literal "data". -/
def strData : List Byte := [100, 97, 116, 97]

/-- The global variables `numChannels`, `sampleRate`, `bytesPerSample`,
`bitsPerSample` (all `int`). -/
structure Globals where
  numChannels : Int
  sampleRate : Int
  bytesPerSample : Int
  bitsPerSample : Int
  deriving DecidableEq

/-- Globals of static storage duration start out zero. -/
def Globals.zero : Globals := ⟨0, 0, 0, 0⟩

/-- The source function `freadStr(f, len)`: the string read and the stream after it. -/
def freadStr (f : FILE) (len : Nat) : Res (List Byte × FILE) :=
  match fread 1 len f with
  | (s, n, f1) => do
    CHECK (n = len)
    return (s, f1)

/-- The source template `freadNum<T>(f)` with `sizeof(T) = size`: the value read and the stream after
it. -/
def freadNum (size : Nat) (f : FILE) : Res (Nat × FILE) :=
  match fread size 1 f with
  | (value, n, f1) => do
    CHECK (n = 1)
    return (leValue value, f1)

/-- The source function `readFmtChunk(wavfile, chunkLen)`.  The operands of `bitsPerSample / 8` are
never negative, so the quotient is the C one. -/
def readFmtChunk (wavfile : FILE) (chunkLen : Nat) (g : Globals) : Res (FILE × Globals) := do
  CHECK (chunkLen ≥ 16)
  let (fmttag, f) ← freadNum 2 wavfile
  CHECK (fmttag = 1)
  let (channels, f) ← freadNum 2 f
  let g := { g with numChannels := (channels : Int) }
  CHECK (g.numChannels = (2 : Int))
  let (rate, f) ← freadNum 4 f
  let g := { g with sampleRate := toInt32 rate }
  CHECK (g.sampleRate = (44100 : Int))
  let (byteRate, f) ← freadNum 4 f
  let (blockAlign, f) ← freadNum 2 f
  let (bits, f) ← freadNum 2 f
  let g := { g with bitsPerSample := (bits : Int) }
  let g := { g with bytesPerSample := g.bitsPerSample / 8 }
  CHECK (byteRate = toUInt32 (g.sampleRate * g.numChannels * g.bytesPerSample))
  CHECK ((blockAlign : Int) = g.numChannels * g.bytesPerSample)
  CHECK (g.bitsPerSample = (16 : Int))
  if chunkLen > 16 then do
    let (extendedSize, f) ← freadNum 2 f
    CHECK (chunkLen = toUInt32 (18 + (extendedSize : Int)))
    let (_, f) := fseek f (extendedSize : Int)
    return (f, g)
  else
    return (f, g)

/-- The `while(true)` loop of `readHeader`, run for at most the given number of
iterations. -/
def readHeaderLoop : Nat → FILE → Globals → Res (FILE × Globals)
  | 0, _, _ => .outOfFuel
  | fuel + 1, wavfile, g => do
    let (chunkName, f) ← freadStr wavfile 4
    let (chunkLen, f) ← freadNum 4 f
    if chunkName = strFmt then do
      let (f, g) ← readFmtChunk f chunkLen g
      readHeaderLoop fuel f g
    else if chunkName = strData then do
      CHECK (g.sampleRate ≠ (0 : Int))
      CHECK (g.numChannels > (0 : Int))
      CHECK (g.bytesPerSample > (0 : Int))
      return (f, g)
    else do
      let (r, f) := fseek f (chunkLen : Int)
      CHECK (r = 0)
      readHeaderLoop fuel f g

/-- The source function `readHeader(wavfile)`. -/
def readHeader (wavfile : FILE) (g : Globals) : Res (FILE × Globals) := do
  let (s, f) ← freadStr wavfile 4
  CHECK (s = strRIFF)
  let (_, f) ← freadNum 4 f
  let (s, f) ← freadStr f 4
  CHECK (s = strWAVE)
  readHeaderLoop (f.data.length / 8 + 1) f g

/-- The source function `init_file()`, for a file `FILENAME` with the given content. -/
def init_file (content : List Byte) (g : Globals) : Res (FILE × Globals) :=
  readHeader { data := content, pos := 0 } g

/-- State of the process running `sound_from_file.cpp`. -/
structure Process where
  /-- content of the file `FILENAME` -/
  content : List Byte
  /-- the global format variables -/
  g : Globals
  /-- the static local `wavfile` of `get_sample`; `none` until the first call -/
  wavfile : Option FILE
  /-- the static local `samples`, as its four bytes -/
  samples : List Byte
  deriving DecidableEq

/-- The process before the first call of `get_sample`. -/
def Process.start (content : List Byte) : Process :=
  { content := content, g := Globals.zero, wavfile := none, samples := [0, 0, 0, 0] }

/-- The element `samples[0]` of the `int16_t` buffer. -/
def sample0 (samples : List Byte) : Int := toInt16 (leValue (samples.take 2))

/-- The source function `get_sample(t)` of `sound_from_file.cpp`: the value returned and the process
state after the call.  The bytes transferred by `fread` overwrite the front of
`samples`, also when the read is short.  (A frame size above four bytes would write
past the end of `samples`; the model keeps such bytes in the list.  The checks of
`readHeader` leave four as the only frame size.) -/
def get_sample (_t : ℚ) (p : Process) : Res (ℚ × Process) := do
  let (wavfile, g) ← match p.wavfile with
    | some f => pure (f, p.g)
    | none => init_file p.content p.g
  match fread (toSizeT (g.bytesPerSample * g.numChannels)) 1 wavfile with
  | (bytes, n, f) =>
    let samples := bytes ++ p.samples.drop bytes.length
    let p1 : Process := { content := p.content, g := g, wavfile := some f, samples := samples }
    if n = 0 then
      return (0, p1)
    else
      return ((sample0 samples : ℚ) * 1 / 32767, p1)

/-- Successive calls `get_sample(t)` for the time arguments of the list, in order:
the values returned and the final state. -/
def getSamples : List ℚ → Process → Res (List ℚ × Process)
  | [], p => .ok ([], p)
  | t :: ts, p => do
    let (v, p1) ← get_sample t p
    let (vs, p2) ← getSamples ts p1
    return (v :: vs, p2)

end SoundFromFile

namespace SoundFromMic

/-- An open PortAudio input stream (`PaStream`): the frames it captures, in order, and
the number of frames already handed to the program.  Opening the stream
(`_init_stream`) is taken to have succeeded. -/
structure PaStream where
  frames : Nat → ℚ
  position : Nat

/-- The PortAudio call `Pa_ReadStream(stream, buffer, n)`, which blocks until `n` frames are available:
the new content of `buffer` and the stream after the read.  Its return value is not
used by the program. -/
def Pa_ReadStream (stream : PaStream) (n : Nat) : List ℚ × PaStream :=
  ((List.range n).map fun i => stream.frames (stream.position + i),
    { stream with position := stream.position + n })

/-- The static locals of `get_sample` in `sound_from_mic.cpp`. -/
structure State where
  stream : PaStream
  buffer : List ℚ
  next_sample : Nat

/-- The static locals at their initial values: `buffer` zeroed and `next_sample` equal to
`BUFFER_SIZE`. -/
def State.start (BUFFER_SIZE : Nat) (frames : Nat → ℚ) : State :=
  { stream := { frames := frames, position := 0 },
    buffer := List.replicate BUFFER_SIZE 0,
    next_sample := BUFFER_SIZE }

/-- The source function `get_sample(t)` of `sound_from_mic.cpp`, for the macro value `BUFFER_SIZE`: the
value returned and the state after the call; `none` when `buffer` is indexed outside
its bounds. -/
def get_sample (BUFFER_SIZE : Nat) (_t : ℚ) (s : State) : Option (ℚ × State) :=
  let s1 : State :=
    if s.next_sample ≥ BUFFER_SIZE then
      match Pa_ReadStream s.stream BUFFER_SIZE with
      | (buffer, stream) => { stream := stream, buffer := buffer, next_sample := 0 }
    else s
  match s1.buffer[s1.next_sample]? with
  | some v => some (v, { s1 with next_sample := s1.next_sample + 1 })
  | none => none

/-- Successive calls `get_sample(t)` for the time arguments of the list: the values
returned. -/
def getSamples (BUFFER_SIZE : Nat) : List ℚ → State → Option (List ℚ)
  | [], _ => some []
  | t :: ts, s =>
    match get_sample BUFFER_SIZE t s with
    | some (v, s1) =>
      match getSamples BUFFER_SIZE ts s1 with
      | some vs => some (v :: vs)
      | none => none
    | none => none

/-- The `j`-th block of `BUFFER_SIZE` frames that the stream delivers. -/
def block (BUFFER_SIZE : Nat) (frames : Nat → ℚ) (j : Nat) : List ℚ :=
  (List.range BUFFER_SIZE).map fun i => frames (j * BUFFER_SIZE + i)

/-- Successive calls `get_sample(t)` for the time arguments of the list: the values
returned and the state after the last call. -/
def run (BUFFER_SIZE : Nat) : List ℚ → State → Option (List ℚ × State)
  | [], s => some ([], s)
  | t :: ts, s =>
    match get_sample BUFFER_SIZE t s with
    | some (v, s1) =>
      match run BUFFER_SIZE ts s1 with
      | some (vs, s2) => some (v :: vs, s2)
      | none => none
    | none => none

/-- The index at which the next call of `get_sample` accesses `buffer`: `next_sample`
after the refill test. -/
def accessIndex (BUFFER_SIZE : Nat) (s : State) : Nat :=
  if s.next_sample ≥ BUFFER_SIZE then 0 else s.next_sample

/-- The state of the static locals after `n` calls: before the first call nothing has
been read; after call `q * BUFFER_SIZE + r` the buffer holds block `q`, `q + 1` blocks
have been read and `next_sample` is `r + 1`. -/
def After (BUFFER_SIZE : Nat) (frames : Nat → ℚ) (n : Nat) (s : State) : Prop :=
  s.stream.frames = frames ∧ s.buffer.length = BUFFER_SIZE ∧
  ((n = 0 ∧ s.next_sample = BUFFER_SIZE ∧ s.stream.position = 0) ∨
    ∃ q r, r < BUFFER_SIZE ∧ n = q * BUFFER_SIZE + r + 1 ∧ s.next_sample = r + 1 ∧
      s.stream.position = (q + 1) * BUFFER_SIZE ∧ s.buffer = block BUFFER_SIZE frames q)

end SoundFromMic

namespace SoundFromFile

/-! ## Auxiliary definitions: closed forms of the operations and file layouts -/

/-- The stream with its cursor moved forward by `n` bytes. -/
def FILE.advance (f : FILE) (n : Nat) : FILE := { f with pos := f.pos + n }

/-- The format state that every accepted `fmt ` chunk leaves behind. -/
def validGlobals : Globals :=
  { numChannels := 2, sampleRate := 44100, bytesPerSample := 2, bitsPerSample := 16 }

/-- What `readFmtChunk` demands of the bytes `r` after the cursor and of the declared
length `L`: the sixteen base bytes are present and carry the supported profile, and
`L` is `16`, or an extension-size field is present and `L` is `18` plus its value. -/
def FmtOK (r : List Byte) (L : Nat) : Prop :=
  16 ≤ L ∧ 16 ≤ r.length ∧
  leValue (r.take 2) = 1 ∧
  leValue ((r.drop 2).take 2) = 2 ∧
  leValue ((r.drop 4).take 4) = 44100 ∧
  leValue ((r.drop 8).take 4) = 176400 ∧
  leValue ((r.drop 12).take 2) = 4 ∧
  leValue ((r.drop 14).take 2) = 16 ∧
  (L = 16 ∨ (18 ≤ r.length ∧ L = 18 + leValue ((r.drop 16).take 2)))

instance (r : List Byte) (L : Nat) : Decidable (FmtOK r L) := by
  unfold FmtOK
  infer_instance

/-- The three checks made when the `data` chunk is met. -/
def DataOK (g : Globals) : Prop :=
  g.sampleRate ≠ (0 : Int) ∧ g.numChannels > (0 : Int) ∧ g.bytesPerSample > (0 : Int)

instance (g : Globals) : Decidable (DataOK g) := by
  unfold DataOK
  infer_instance

/-- Adds `k` to the byte count of a walk result. -/
def bump (k : Nat) : Res (Nat × Globals) → Res (Nat × Globals)
  | .ok (n, g) => .ok (k + n, g)
  | .fatal => .fatal
  | .outOfFuel => .outOfFuel

/-- Moves the cursor of `f` by the byte count of a walk result. -/
def place (f : FILE) : Res (Nat × Globals) → Res (FILE × Globals)
  | .ok (n, g) => .ok (f.advance n, g)
  | .fatal => .fatal
  | .outOfFuel => .outOfFuel

/-- The loop of `readHeader` seen from the bytes `r` after the cursor: the number of
bytes the cursor moves and the format state at the `data` chunk. -/
def walk : Nat → List Byte → Globals → Res (Nat × Globals)
  | 0, _, _ => .outOfFuel
  | fuel + 1, r, g =>
    if 8 ≤ r.length then
      if r.take 4 = strFmt then
        if FmtOK (r.drop 8) (leValue ((r.drop 4).take 4)) then
          bump (8 + leValue ((r.drop 4).take 4))
            (walk fuel (r.drop (8 + leValue ((r.drop 4).take 4))) validGlobals)
        else .fatal
      else if r.take 4 = strData then
        if DataOK g then .ok (8, g) else .fatal
      else
        bump (8 + leValue ((r.drop 4).take 4))
          (walk fuel (r.drop (8 + leValue ((r.drop 4).take 4))) g)
    else .fatal

/-- The chunk walk with the budget `length / 8 + 1`. -/
def walkR (r : List Byte) (g : Globals) : Res (Nat × Globals) :=
  walk (r.length / 8 + 1) r g

/-- The twelve-byte RIFF preamble is present and carries both literals. -/
def HeaderOK (d : List Byte) : Prop :=
  12 ≤ d.length ∧ d.take 4 = strRIFF ∧ (d.drop 8).take 4 = strWAVE

instance (d : List Byte) : Decidable (HeaderOK d) := by
  unfold HeaderOK
  infer_instance

/-- Cursor position and format state after `init_file` on a file with the given
content, started from the zero-initialised globals. -/
def headerResult (content : List Byte) : Res (Nat × Globals) :=
  match init_file content Globals.zero with
  | .ok (f, g) => .ok (f.pos, g)
  | .fatal => .fatal
  | .outOfFuel => .outOfFuel

/-- The value returned by the call that finds the cursor `4 * k` bytes into `r`, the
bytes that follow the `data` chunk header up to the end of the file. -/
def frameValue (r : List Byte) (k : Nat) : ℚ :=
  if 4 * k + 4 ≤ r.length then (toInt16 (leValue ((r.drop (4 * k)).take 2)) : ℚ) / 32767 else 0

/-- The values returned by successive `get_sample` calls, started on a fresh process. -/
def outputs (content : List Byte) (ts : List ℚ) : Res (List ℚ) :=
  match getSamples ts (Process.start content) with
  | .ok (vs, _) => .ok vs
  | .fatal => .fatal
  | .outOfFuel => .outOfFuel

/-- The process is past its first call: the file is open and the format is the accepted one. -/
def Process.Streaming (p : Process) (f : FILE) : Prop :=
  p.wavfile = some f ∧ p.g = validGlobals

/-- Little-endian encoding of `v` in `w` bytes. -/
def leBytes : Nat → Nat → List Byte
  | 0, _ => []
  | w + 1, v => ⟨v % 256, Nat.mod_lt _ (by norm_num)⟩ :: leBytes w (v / 256)

/-- A chunk of a RIFF file: its four-byte tag and its payload. -/
structure Chunk where
  tag : List Byte
  payload : List Byte
  deriving DecidableEq, Repr

/-- The bytes of a chunk: tag, payload length as a little-endian `uint32`, payload
(no padding byte). -/
def Chunk.encode (c : Chunk) : List Byte :=
  c.tag ++ leBytes 4 c.payload.length ++ c.payload

/-- The tag has four bytes and the payload length fits the length field. -/
def Chunk.WF (c : Chunk) : Prop := c.tag.length = 4 ∧ c.payload.length < 2 ^ 32

instance (c : Chunk) : Decidable c.WF := by
  unfold Chunk.WF
  infer_instance

/-- A chunk that the walker skips: its tag is neither "fmt " nor "data". -/
def Chunk.IsUnknown (c : Chunk) : Prop := c.WF ∧ c.tag ≠ strFmt ∧ c.tag ≠ strData

instance (c : Chunk) : Decidable c.IsUnknown := by
  unfold Chunk.IsUnknown
  infer_instance

/-- A format chunk of the supported profile: tag "fmt ", and a payload whose fields
are PCM, two channels, 44100 Hz, 176400 bytes per second, block align 4, 16 bits,
of length 16 or with an extension-size field `e` and length `18 + e`. -/
def Chunk.IsFmt (c : Chunk) : Prop := c.WF ∧ c.tag = strFmt ∧ FmtOK c.payload c.payload.length

instance (c : Chunk) : Decidable c.IsFmt := by
  unfold Chunk.IsFmt
  infer_instance

/-- The bytes of a sequence of chunks. -/
def encodeAll : List Chunk → List Byte
  | [] => []
  | c :: cs => c.encode ++ encodeAll cs

/-- The format state after the walker has passed the chunks of the list, none of them
tagged "data"; `none` when a "fmt " chunk among them is rejected. -/
def afterChunks : List Chunk → Globals → Option Globals
  | [], g => some g
  | c :: cs, g =>
    if c.tag = strFmt then
      if FmtOK c.payload c.payload.length then afterChunks cs validGlobals else none
    else afterChunks cs g

/-- The RIFF preamble followed by a run of chunks. -/
def riffHead (size : List Byte) (cs : List Chunk) : List Byte :=
  strRIFF ++ size ++ strWAVE ++ encodeAll cs

/-- The walk over what follows a run of chunks, in the format state they leave. -/
def walkAfter (cs : List Chunk) (tail : List Byte) : Res (Nat × Globals) :=
  match afterChunks cs Globals.zero with
  | some g1 => walkR tail g1
  | none => .fatal

/-- The sample values determined by a walk result `x` over the bytes `tail`. -/
def outputsOf (x : Res (Nat × Globals)) (tail : List Byte) (ts : List ℚ) : Res (List ℚ) :=
  match x with
  | .ok (m, _) => .ok ((List.range ts.length).map (frameValue (tail.drop m)))
  | .fatal => if ts = [] then .ok [] else .fatal
  | .outOfFuel => .outOfFuel

/-- A RIFF/WAVE file: preamble, chunks, then a "data" chunk with the given payload,
then whatever follows it. -/
def wavFile (size : List Byte) (cs : List Chunk) (payload trailer : List Byte) : List Byte :=
  riffHead size cs ++ (strData ++ leBytes 4 payload.length ++ (payload ++ trailer))

/-- The signed 16-bit little-endian integer formed by bytes `4k` and `4k+1` of a payload. -/
def leftRaw (payload : List Byte) (k : Nat) : Int :=
  toInt16 ((payload.getD (4 * k) 0).val + 256 * (payload.getD (4 * k + 1) 0).val)

/-- The sixteen base bytes of a format chunk of the supported profile. -/
def fmtBase : List Byte := [1, 0, 2, 0, 0x44, 0xAC, 0, 0, 0x10, 0xB1, 0x02, 0, 4, 0, 16, 0]

/-- The signed 16-bit little-endian integer formed by two bytes, low byte first: the
unsigned value `lo + 256 * hi`, less 65536 when the top bit of `hi` is set. -/
def signed16 (lo hi : Byte) : Int :=
  if hi.val < 128 then (lo.val : Int) + 256 * (hi.val : Int)
  else (lo.val : Int) + 256 * (hi.val : Int) - 65536

/-- The left-channel sample of frame `k` of a data payload: the signed 16-bit
little-endian integer formed by its bytes `4k` and `4k+1`. -/
def leftSample (payload : List Byte) (k : Nat) : Int :=
  signed16 (payload.getD (4 * k) 0) (payload.getD (4 * k + 1) 0)

/-- The bytes of a chunk as the RIFF container lays it out: tag, payload length,
payload, and one padding byte when the payload length is odd. -/
def Chunk.encodePadded (c : Chunk) : List Byte :=
  c.encode ++ (if c.payload.length % 2 = 1 then [0] else [])

/-- The bytes of a sequence of chunks in the RIFF layout, padding bytes included. -/
def encodeAllPadded : List Chunk → List Byte
  | [] => []
  | c :: cs => c.encodePadded ++ encodeAllPadded cs

/-- A RIFF/WAVE file in the RIFF layout: preamble, chunks with their padding bytes, then
a "data" chunk with the given payload, then whatever follows it. -/
def riffFile (size : List Byte) (cs : List Chunk) (payload trailer : List Byte) : List Byte :=
  strRIFF ++ size ++ strWAVE ++ encodeAllPadded cs ++
    (strData ++ leBytes 4 payload.length ++ (payload ++ trailer))

/-- A RIFF/WAVE file with a 16-byte format chunk, a "LIST" chunk of three bytes followed
by its padding byte, and a "data" chunk of one frame. -/
def paddedFile : List Byte :=
  riffFile [56, 0, 0, 0] [⟨strFmt, fmtBase⟩, ⟨[76, 73, 83, 84], [1, 2, 3]⟩] [1, 0, 2, 0] []

/-- A file whose "data" chunk declares 4 bytes (one frame) and is followed by a "LIST"
chunk. -/
def trailingChunkFile : List Byte :=
  wavFile [48, 0, 0, 0] [⟨strFmt, fmtBase⟩] [1, 0, 2, 0]
    (Chunk.encode ⟨[76, 73, 83, 84], [97, 98, 99, 100]⟩)

/-- An extended "fmt " chunk with the given sixteen base bytes and extension payload. -/
def extFmtChunk (base ext : List Byte) : Chunk :=
  { tag := strFmt, payload := base ++ leBytes 2 ext.length ++ ext }

/-- A file whose only frame has the left-channel bytes `00 80`. -/
def minSampleFile : List Byte :=
  wavFile [40, 0, 0, 0] [⟨strFmt, fmtBase⟩] [0, 0x80, 0, 0] []

/-- The declared byte rate of a format chunk (payload bytes 8 to 11). -/
def Chunk.byteRate (c : Chunk) : Nat := leValue ((c.payload.drop 8).take 4)

/-- The declared block alignment of a format chunk (payload bytes 12 and 13). -/
def Chunk.blockAlign (c : Chunk) : Nat := leValue ((c.payload.drop 12).take 2)

/-! # Theorems -/

/-! ## Basic facts about the run outcome and the stream primitives -/

@[simp] theorem Res.ok_bind {α β : Type} (a : α) (k : α → Res β) : (Res.ok a >>= k) = k a := rfl
@[simp] theorem Res.fatal_bind {α β : Type} (k : α → Res β) : (Res.fatal >>= k) = Res.fatal := rfl
@[simp] theorem Res.outOfFuel_bind {α β : Type} (k : α → Res β) :
    (Res.outOfFuel >>= k) = Res.outOfFuel := rfl
@[simp] theorem Res.pure_eq {α : Type} (a : α) : (pure a : Res α) = Res.ok a := rfl

theorem CHECK_pos {x : Prop} [Decidable x] (h : x) : CHECK x = Res.ok () := by
  simp [CHECK, h]

theorem CHECK_neg {x : Prop} [Decidable x] (h : ¬ x) : CHECK x = Res.fatal := by
  simp [CHECK, h]

@[simp] theorem FILE.advance_data (f : FILE) (n : Nat) : (f.advance n).data = f.data := rfl
@[simp] theorem FILE.advance_pos (f : FILE) (n : Nat) : (f.advance n).pos = f.pos + n := rfl
@[simp] theorem FILE.advance_zero (f : FILE) : f.advance 0 = f := rfl

@[simp] theorem FILE.advance_advance (f : FILE) (a b : Nat) :
    (f.advance a).advance b = f.advance (a + b) := by
  simp [FILE.advance, Nat.add_assoc]

@[simp] theorem FILE.rest_advance (f : FILE) (n : Nat) : (f.advance n).rest = f.rest.drop n := by
  simp [FILE.rest, FILE.advance, List.drop_drop, Nat.add_comm]

theorem FILE.rest_length (f : FILE) : f.rest.length = f.data.length - f.pos := by
  simp [FILE.rest]

theorem freadStr_eq (f : FILE) (len : Nat) :
    freadStr f len =
      if len ≤ f.rest.length then Res.ok (f.rest.take len, f.advance len) else Res.fatal := by
  unfold freadStr fread
  by_cases h : len ≤ f.rest.length
  · have h1 : min len (f.data.length - f.pos) = len := by
      rw [FILE.rest_length] at h; omega
    rw [if_pos h]
    simp [CHECK, FILE.rest, FILE.advance, h1]
  · have h1 : ¬ min len (f.data.length - f.pos) = len := by
      rw [FILE.rest_length] at h; omega
    rw [if_neg h]
    simp [CHECK, h1]

theorem freadNum_eq (size : Nat) (hs : 0 < size) (f : FILE) :
    freadNum size f =
      if size ≤ f.rest.length then Res.ok (leValue (f.rest.take size), f.advance size)
      else Res.fatal := by
  unfold freadNum fread
  by_cases h : size ≤ f.rest.length
  · have h1 : min size (f.data.length - f.pos) = size := by
      rw [FILE.rest_length] at h; omega
    rw [if_pos h]
    simp [CHECK, FILE.rest, FILE.advance, h1, Nat.div_self hs]
  · have h1 : min size (f.data.length - f.pos) < size := by
      rw [FILE.rest_length] at h; omega
    have h2 : ¬ min size (f.data.length - f.pos) / size = 1 := by
      rw [Nat.div_eq_of_lt h1]; omega
    rw [if_neg h]
    simp [CHECK, h2]

theorem fseek_nat (f : FILE) (n : Nat) : fseek f (n : Int) = (0, f.advance n) := by
  unfold fseek
  have h : 0 ≤ (f.pos : Int) + (n : Int) := by omega
  have h2 : ((f.pos : Int) + (n : Int)).toNat = f.pos + n := by omega
  simp [h, h2, FILE.advance]

theorem leValue_lt (bs : List Byte) : leValue bs < 256 ^ bs.length := by
  induction bs with
  | nil => simp [leValue]
  | cons b bs ih =>
    have hb := b.isLt
    simp only [leValue, List.length_cons, pow_succ]
    omega

/-! ## The format chunk handler in closed form -/

theorem leValue_take_lt (r : List Byte) (n : Nat) : leValue (r.take n) < 256 ^ n := by
  have h := leValue_lt (r.take n)
  have h2 : (r.take n).length ≤ n := by simp
  exact lt_of_lt_of_le h (Nat.pow_le_pow_right (by norm_num) h2)

theorem toInt32_eq_iff (v : Nat) (hv : v < 2 ^ 32) (c : Nat) (hc : c < 2 ^ 31) :
    toInt32 v = (c : Int) ↔ v = c := by
  unfold toInt32
  rw [Nat.mod_eq_of_lt hv]
  split <;> omega

theorem Res.ite_bind {α β : Type} (c : Prop) [Decidable c] (a : α) (k : α → Res β) :
    ((if c then Res.ok a else Res.fatal) >>= k) = if c then k a else Res.fatal := by
  split <;> rfl

theorem fmt_arith (nc rate br ba bits : Nat) (hrate : rate < 2 ^ 32) :
    (((nc : Int) = 2 ∧ toInt32 rate = 44100) ∧
      (br = toUInt32 (toInt32 rate * (nc : Int) * ((bits : Int) / 8)) ∧
        (ba : Int) = (nc : Int) * ((bits : Int) / 8) ∧ (bits : Int) = 16)) ↔
    (nc = 2 ∧ rate = 44100 ∧ br = 176400 ∧ ba = 4 ∧ bits = 16) := by
  have hr := toInt32_eq_iff rate hrate 44100 (by norm_num)
  constructor
  · rintro ⟨⟨h1, h2⟩, h3, h4, h5⟩
    have h1n : nc = 2 := by omega
    have h2n : rate = 44100 := hr.mp (by exact_mod_cast h2)
    have h5n : bits = 16 := by omega
    subst h1n h2n h5n
    refine ⟨rfl, rfl, ?_, ?_, rfl⟩
    · rw [h3]; decide
    · omega
  · rintro ⟨h1, h2, h3, h4, h5⟩
    subst h1 h2 h3 h4 h5
    refine ⟨⟨rfl, by decide⟩, by decide, by decide, rfl⟩

theorem readFmtChunk_eq (f : FILE) (L : Nat) (g : Globals) :
    readFmtChunk f L g =
      if FmtOK f.rest L then Res.ok (f.advance L, validGlobals) else Res.fatal := by
  have e4 := leValue_take_lt (f.rest.drop 4) 4
  have e16 := leValue_take_lt (f.rest.drop 16) 2
  generalize hr : f.rest = r at *
  simp only [readFmtChunk, freadNum_eq 2 (by norm_num), freadNum_eq 4 (by norm_num), CHECK,
    Res.ite_bind, Res.ok_bind, Res.pure_eq, fseek_nat, FILE.rest_advance, FILE.advance_advance,
    List.length_drop, List.drop_drop, hr, Nat.reduceAdd, ge_iff_le, gt_iff_lt]
  have ar := fmt_arith (leValue ((r.drop 2).take 2)) (leValue ((r.drop 4).take 4))
    (leValue ((r.drop 8).take 4)) (leValue ((r.drop 12).take 2)) (leValue ((r.drop 14).take 2))
    (by simpa using e4)
  have hF : FmtOK r L ↔ (16 ≤ L ∧ 16 ≤ r.length ∧ leValue (r.take 2) = 1 ∧
      leValue ((r.drop 2).take 2) = 2 ∧ leValue ((r.drop 4).take 4) = 44100 ∧
      leValue ((r.drop 8).take 4) = 176400 ∧ leValue ((r.drop 12).take 2) = 4 ∧
      leValue ((r.drop 14).take 2) = 16 ∧
      (L = 16 ∨ (18 ≤ r.length ∧ L = 18 + leValue ((r.drop 16).take 2)))) := Iff.rfl
  have hext : toUInt32 (18 + (leValue ((r.drop 16).take 2) : Int))
      = 18 + leValue ((r.drop 16).take 2) := by
    unfold toUInt32; norm_num at e16; omega
  rw [hext]
  clear hext e4 e16
  by_cases hc : FmtOK r L
  · rw [if_pos hc]
    rw [hF] at hc
    clear hF
    generalize leValue (r.take 2) = tag at *
    generalize leValue ((r.drop 2).take 2) = nc at *
    generalize leValue ((r.drop 4).take 4) = rate at *
    generalize leValue ((r.drop 8).take 4) = br at *
    generalize leValue ((r.drop 12).take 2) = ba at *
    generalize leValue ((r.drop 14).take 2) = bits at *
    generalize leValue ((r.drop 16).take 2) = ext at *
    obtain ⟨h1, h2, h3, h4, h5, h6, h7, h8, h9⟩ := hc
    obtain ⟨⟨a1, a2⟩, a3, a4, a5⟩ := ar.mpr ⟨h4, h5, h6, h7, h8⟩
    rw [if_pos h1, if_pos (by omega), if_pos h3, if_pos (by omega), if_pos a1, if_pos (by omega),
      if_pos a2, if_pos (by omega), if_pos (by omega), if_pos (by omega), if_pos a3, if_pos a4,
      if_pos a5]
    subst h4 h5 h8
    have hg : (⟨((2 : Nat) : Int), toInt32 44100, ((16 : Nat) : Int) / 8, ((16 : Nat) : Int)⟩ :
        Globals) = validGlobals := by decide
    rw [hg]
    rcases h9 with h9 | ⟨h9, h10⟩
    · subst h9
      rw [if_neg (by omega)]
    · rw [if_pos (by omega), if_pos (by omega), if_pos h10]
      have : 2 + (2 + (4 + (4 + (2 + (2 + (2 + ext)))))) = L := by omega
      rw [this]
  · rw [if_neg hc]
    rw [hF] at hc
    clear hF
    generalize leValue (r.take 2) = tag at *
    generalize leValue ((r.drop 2).take 2) = nc at *
    generalize leValue ((r.drop 4).take 4) = rate at *
    generalize leValue ((r.drop 8).take 4) = br at *
    generalize leValue ((r.drop 12).take 2) = ba at *
    generalize leValue ((r.drop 14).take 2) = bits at *
    generalize leValue ((r.drop 16).take 2) = ext at *
    by_cases c1 : 16 ≤ L
    swap
    · rw [if_neg c1]
    rw [if_pos c1]
    by_cases c2 : 2 ≤ r.length
    swap
    · rw [if_neg c2]
    rw [if_pos c2]
    by_cases c3 : tag = 1
    swap
    · rw [if_neg c3]
    rw [if_pos c3]
    by_cases c4 : 2 ≤ r.length - 2
    swap
    · rw [if_neg c4]
    rw [if_pos c4]
    by_cases c5 : (nc : Int) = 2
    swap
    · rw [if_neg c5]
    rw [if_pos c5]
    by_cases c6 : 4 ≤ r.length - 2 - 2
    swap
    · rw [if_neg c6]
    rw [if_pos c6]
    by_cases c7 : toInt32 rate = 44100
    swap
    · rw [if_neg c7]
    rw [if_pos c7]
    by_cases c8 : 4 ≤ r.length - 2 - 2 - 4
    swap
    · rw [if_neg c8]
    rw [if_pos c8]
    by_cases c9 : 2 ≤ r.length - 2 - 2 - 4 - 4
    swap
    · rw [if_neg c9]
    rw [if_pos c9]
    by_cases c10 : 2 ≤ r.length - 2 - 2 - 4 - 4 - 2
    swap
    · rw [if_neg c10]
    rw [if_pos c10]
    by_cases c11 : br = toUInt32 (toInt32 rate * (nc : Int) * ((bits : Int) / 8))
    swap
    · rw [if_neg c11]
    rw [if_pos c11]
    by_cases c12 : (ba : Int) = (nc : Int) * ((bits : Int) / 8)
    swap
    · rw [if_neg c12]
    rw [if_pos c12]
    by_cases c13 : (bits : Int) = 16
    swap
    · rw [if_neg c13]
    rw [if_pos c13]
    obtain ⟨b1, b2, b3, b4, b5⟩ := ar.mp ⟨⟨c5, c7⟩, c11, c12, c13⟩
    by_cases c14 : 16 < L
    · rw [if_pos c14]
      by_cases c15 : 2 ≤ r.length - 2 - 2 - 4 - 4 - 2 - 2
      swap
      · rw [if_neg c15]
      rw [if_pos c15]
      by_cases c16 : L = 18 + ext
      swap
      · rw [if_neg c16]
      exact absurd ⟨c1, by omega, c3, b1, b2, b3, b4, b5, Or.inr ⟨by omega, c16⟩⟩ hc
    · exact absurd ⟨c1, by omega, c3, b1, b2, b3, b4, b5, Or.inl (by omega)⟩ hc

/-! ## The chunk walk as a function of the bytes after the cursor -/

theorem place_advance_bump (f : FILE) (k : Nat) (x : Res (Nat × Globals)) :
    place (f.advance k) x = place f (bump k x) := by
  cases x with
  | ok a => obtain ⟨n, g⟩ := a; simp [place, bump]
  | fatal => rfl
  | outOfFuel => rfl

theorem readHeaderLoop_eq_walk (fuel : Nat) :
    ∀ (f : FILE) (g : Globals), readHeaderLoop fuel f g = place f (walk fuel f.rest g) := by
  induction fuel with
  | zero => intro f g; rfl
  | succ n ih =>
    intro f g
    simp only [readHeaderLoop, walk, freadStr_eq, freadNum_eq 4 (by norm_num), readFmtChunk_eq,
      fseek_nat, CHECK, Res.ite_bind, Res.ok_bind, Res.pure_eq, FILE.rest_advance,
      FILE.advance_advance, List.length_drop, List.drop_drop, Nat.reduceAdd, ih]
    by_cases h8 : 8 ≤ f.rest.length
    swap
    · rw [if_neg h8]
      by_cases h4 : 4 ≤ f.rest.length
      swap
      · rw [if_neg h4]; rfl
      rw [if_pos h4, if_neg (by omega)]; rfl
    rw [if_pos h8, if_pos (by omega), if_pos (by omega)]
    by_cases hf : f.rest.take 4 = strFmt
    · rw [if_pos hf, if_pos hf]
      by_cases hk : FmtOK (f.rest.drop 8) (leValue ((f.rest.drop 4).take 4))
      · rw [if_pos hk, if_pos hk]
        rw [← place_advance_bump]
        have e : 4 + (4 + leValue ((f.rest.drop 4).take 4)) = 8 + leValue ((f.rest.drop 4).take 4) := by
          omega
        rw [e]
      · rw [if_neg hk, if_neg hk]; rfl
    · rw [if_neg hf, if_neg hf]
      by_cases hd : f.rest.take 4 = strData
      · rw [if_pos hd, if_pos hd]
        unfold DataOK
        by_cases c1 : g.sampleRate ≠ 0
        swap
        · rw [if_neg c1, if_neg (fun h => c1 h.1)]; rfl
        by_cases c2 : g.numChannels > 0
        swap
        · rw [if_pos c1, if_neg c2, if_neg (fun h => c2 h.2.1)]; rfl
        by_cases c3 : g.bytesPerSample > 0
        swap
        · rw [if_pos c1, if_pos c2, if_neg c3, if_neg (fun h => c3 h.2.2)]; rfl
        rw [if_pos c1, if_pos c2, if_pos c3, if_pos ⟨c1, c2, c3⟩]; rfl
      · rw [if_neg hd, if_neg hd]
        rw [← place_advance_bump]
        have e : 4 + (4 + leValue ((f.rest.drop 4).take 4)) = 8 + leValue ((f.rest.drop 4).take 4) := by
          omega
        rw [e, if_pos trivial]

/-! ## The iteration budget -/

theorem bump_ne_outOfFuel (k : Nat) (x : Res (Nat × Globals)) :
    bump k x ≠ Res.outOfFuel ↔ x ≠ Res.outOfFuel := by
  cases x with
  | ok a => obtain ⟨n, g⟩ := a; simp [bump]
  | fatal => simp [bump]
  | outOfFuel => simp [bump]

theorem drop_length_div_lt (r : List Byte) (m fuel : Nat) (h8 : 8 ≤ r.length)
    (h : r.length / 8 < fuel + 1) : (r.drop (8 + m)).length / 8 < fuel := by
  rw [List.length_drop]
  omega

/-- A budget above one eighth of the bytes left is never used up. -/
theorem walk_fuel_ok (fuel : Nat) :
    ∀ (r : List Byte) (g : Globals), r.length / 8 < fuel → walk fuel r g ≠ Res.outOfFuel := by
  induction fuel with
  | zero => intro r g h; omega
  | succ n ih =>
    intro r g h
    unfold walk
    by_cases h8 : 8 ≤ r.length
    swap
    · rw [if_neg h8]; exact fun e => Res.noConfusion e
    rw [if_pos h8]
    have hd := fun m => drop_length_div_lt r m n h8 h
    split
    · split
      · exact (bump_ne_outOfFuel _ _).mpr (ih _ _ (hd _))
      · exact fun e => Res.noConfusion e
    · split
      · split
        · exact fun e => Res.noConfusion e
        · exact fun e => Res.noConfusion e
      · exact (bump_ne_outOfFuel _ _).mpr (ih _ _ (hd _))

/-- A run that ends within its budget ends the same way with any larger budget. -/
theorem walk_fuel_mono (fuel : Nat) :
    ∀ (r : List Byte) (g : Globals), walk fuel r g ≠ Res.outOfFuel →
      ∀ k, walk (fuel + k) r g = walk fuel r g := by
  induction fuel with
  | zero => intro r g h; exact absurd rfl h
  | succ n ih =>
    intro r g h k
    have e : n + 1 + k = (n + k) + 1 := by omega
    rw [e]
    unfold walk at h ⊢
    by_cases h8 : 8 ≤ r.length
    swap
    · simp only [if_neg h8]
    simp only [if_pos h8] at h ⊢
    by_cases hf : r.take 4 = strFmt
    · simp only [if_pos hf] at h ⊢
      by_cases hk : FmtOK (r.drop 8) (leValue ((r.drop 4).take 4))
      · simp only [if_pos hk] at h ⊢
        rw [ih _ _ ((bump_ne_outOfFuel _ _).mp h) k]
      · simp only [if_neg hk]
    · simp only [if_neg hf] at h ⊢
      by_cases hd : r.take 4 = strData
      · simp only [if_pos hd]
      · simp only [if_neg hd] at h ⊢
        rw [ih _ _ ((bump_ne_outOfFuel _ _).mp h) k]

theorem walk_eq_walkR (fuel : Nat) (r : List Byte) (g : Globals) (h : r.length / 8 < fuel) :
    walk fuel r g = walkR r g := by
  unfold walkR
  have e : fuel = (r.length / 8 + 1) + (fuel - (r.length / 8 + 1)) := by omega
  rw [e]
  exact walk_fuel_mono _ r g (walk_fuel_ok _ r g (by omega)) _

theorem walkR_ne_outOfFuel (r : List Byte) (g : Globals) : walkR r g ≠ Res.outOfFuel :=
  walk_fuel_ok _ r g (by omega)

/-- One iteration of the loop, with the rest of the loop run to its end. -/
theorem walkR_step (r : List Byte) (g : Globals) :
    walkR r g =
      if 8 ≤ r.length then
        if r.take 4 = strFmt then
          if FmtOK (r.drop 8) (leValue ((r.drop 4).take 4)) then
            bump (8 + leValue ((r.drop 4).take 4))
              (walkR (r.drop (8 + leValue ((r.drop 4).take 4))) validGlobals)
          else Res.fatal
        else if r.take 4 = strData then
          if DataOK g then Res.ok (8, g) else Res.fatal
        else
          bump (8 + leValue ((r.drop 4).take 4))
            (walkR (r.drop (8 + leValue ((r.drop 4).take 4))) g)
      else Res.fatal := by
  by_cases h8 : 8 ≤ r.length
  swap
  · rw [if_neg h8]; unfold walkR walk; rw [if_neg h8]
  have hd := fun m => drop_length_div_lt r m (r.length / 8) h8 (by omega)
  conv_lhs => unfold walkR walk
  rw [walk_eq_walkR _ _ _ (hd _), walk_eq_walkR _ _ _ (hd _)]

theorem readHeaderLoop_fuel_ok (fuel : Nat) (f : FILE) (g : Globals)
    (h : (f.data.length - f.pos) / 8 < fuel) : readHeaderLoop fuel f g ≠ Res.outOfFuel := by
  rw [readHeaderLoop_eq_walk]
  have := walk_fuel_ok fuel f.rest g (by rw [FILE.rest_length]; exact h)
  revert this
  cases walk fuel f.rest g with
  | ok a => intro _ e; exact Res.noConfusion e
  | fatal => intro _ e; exact Res.noConfusion e
  | outOfFuel => intro h; exact absurd rfl h

theorem readHeaderLoop_fuel_mono (fuel : Nat) (f : FILE) (g : Globals)
    (h : readHeaderLoop fuel f g ≠ Res.outOfFuel) (k : Nat) :
    readHeaderLoop (fuel + k) f g = readHeaderLoop fuel f g := by
  rw [readHeaderLoop_eq_walk] at h
  rw [readHeaderLoop_eq_walk, readHeaderLoop_eq_walk, walk_fuel_mono fuel f.rest g _ k]
  intro e
  rw [e] at h
  exact h rfl

/-! ## `readHeader` in closed form -/

theorem readHeader_eq (f : FILE) (g : Globals) :
    readHeader f g =
      if HeaderOK f.rest then place (f.advance 12) (walkR (f.rest.drop 12) g) else Res.fatal := by
  simp only [readHeader, freadStr_eq, freadNum_eq 4 (by norm_num), CHECK, Res.ite_bind,
    Res.ok_bind, Res.pure_eq, FILE.rest_advance, FILE.advance_advance, List.length_drop,
    List.drop_drop, Nat.reduceAdd, readHeaderLoop_eq_walk, FILE.advance_data]
  have hfuel : (f.rest.drop 12).length / 8 < f.data.length / 8 + 1 := by
    rw [List.length_drop, FILE.rest_length]
    have : (f.data.length - f.pos - 12) / 8 ≤ f.data.length / 8 :=
      Nat.div_le_div_right (by omega)
    omega
  rw [walk_eq_walkR _ _ _ hfuel]
  unfold HeaderOK
  by_cases c1 : 4 ≤ f.rest.length
  swap
  · rw [if_neg c1, if_neg (fun h => c1 (by omega))]
  rw [if_pos c1]
  by_cases c2 : f.rest.take 4 = strRIFF
  swap
  · rw [if_neg c2, if_neg (fun h => c2 h.2.1)]
  rw [if_pos c2]
  by_cases c3 : 4 ≤ f.rest.length - 4
  swap
  · rw [if_neg c3, if_neg (fun h => c3 (by omega))]
  rw [if_pos c3]
  by_cases c4 : 4 ≤ f.rest.length - 4 - 4
  swap
  · rw [if_neg c4, if_neg (fun h => c4 (by omega))]
  rw [if_pos c4]
  by_cases c5 : (f.rest.drop 8).take 4 = strWAVE
  swap
  · rw [if_neg c5, if_neg (fun h => c5 h.2.2)]
  rw [if_pos c5, if_pos ⟨by omega, c2, c5⟩]

theorem init_file_eq (d : List Byte) (g : Globals) :
    init_file d g =
      if HeaderOK d then place { data := d, pos := 12 } (walkR (d.drop 12) g) else Res.fatal := by
  unfold init_file
  rw [readHeader_eq]
  simp [FILE.rest, FILE.advance]

theorem headerResult_eq (d : List Byte) :
    headerResult d =
      if HeaderOK d then bump 12 (walkR (d.drop 12) Globals.zero) else Res.fatal := by
  unfold headerResult
  rw [init_file_eq]
  by_cases h : HeaderOK d
  · rw [if_pos h, if_pos h]
    cases walkR (d.drop 12) Globals.zero with
    | ok a => obtain ⟨n, g⟩ := a; simp [place, bump, FILE.advance]
    | fatal => rfl
    | outOfFuel => rfl
  · rw [if_neg h, if_neg h]

theorem init_file_of_headerResult (d : List Byte) (p : Nat) (g : Globals)
    (h : headerResult d = Res.ok (p, g)) :
    init_file d Globals.zero = Res.ok ({ data := d, pos := p }, g) := by
  rw [headerResult_eq] at h
  rw [init_file_eq]
  by_cases hh : HeaderOK d
  · rw [if_pos hh] at h ⊢
    revert h
    cases walkR (d.drop 12) Globals.zero with
    | ok a =>
      obtain ⟨n, g1⟩ := a
      simp only [place, bump, FILE.advance, Res.ok.injEq, Prod.mk.injEq]
      rintro ⟨h1, h2⟩
      subst h1 h2
      exact ⟨rfl, rfl⟩
    | fatal => intro h; exact Res.noConfusion h
    | outOfFuel => intro h; exact Res.noConfusion h
  · rw [if_neg hh] at h
    exact Res.noConfusion h

theorem headerResult_fatal_iff (d : List Byte) :
    headerResult d = Res.fatal ↔ init_file d Globals.zero = Res.fatal := by
  unfold headerResult
  cases init_file d Globals.zero with
  | ok a => obtain ⟨f, g⟩ := a; simp
  | fatal => simp
  | outOfFuel => simp

theorem headerResult_ne_outOfFuel (d : List Byte) : headerResult d ≠ Res.outOfFuel := by
  rw [headerResult_eq]
  split
  · exact (bump_ne_outOfFuel _ _).mpr (walkR_ne_outOfFuel _ _)
  · exact fun e => Res.noConfusion e

/-- The format state at the end of a successful walk is the starting one or the one
left by a `fmt ` chunk, and it passes the checks made at the `data` chunk. -/
theorem walk_globals (fuel : Nat) :
    ∀ (r : List Byte) (g : Globals) (n : Nat) (g1 : Globals),
      walk fuel r g = Res.ok (n, g1) → DataOK g1 ∧ (g1 = g ∨ g1 = validGlobals) := by
  induction fuel with
  | zero => intro r g n g1 h; exact Res.noConfusion h
  | succ m ih =>
    intro r g n g1 h
    unfold walk at h
    have hb : ∀ (k : Nat) (x : Res (Nat × Globals)), bump k x = Res.ok (n, g1) →
        ∃ n1, x = Res.ok (n1, g1) := by
      intro k x hx
      cases x with
      | ok a =>
        obtain ⟨n1, g2⟩ := a
        simp only [bump, Res.ok.injEq, Prod.mk.injEq] at hx
        exact ⟨n1, by rw [hx.2]⟩
      | fatal => exact Res.noConfusion hx
      | outOfFuel => exact Res.noConfusion hx
    split at h
    · split at h
      · split at h
        · obtain ⟨n1, h1⟩ := hb _ _ h
          have := ih _ _ _ _ h1
          exact ⟨this.1, Or.inr (by rcases this.2 with e | e <;> exact e)⟩
        · exact Res.noConfusion h
      · split at h
        · split at h
          · rename_i hd
            simp only [Res.ok.injEq, Prod.mk.injEq] at h
            rw [← h.2]
            exact ⟨hd, Or.inl rfl⟩
          · exact Res.noConfusion h
        · obtain ⟨n1, h1⟩ := hb _ _ h
          exact ih _ _ _ _ h1
    · exact Res.noConfusion h

theorem headerResult_globals (d : List Byte) (p : Nat) (g : Globals)
    (h : headerResult d = Res.ok (p, g)) : g = validGlobals := by
  rw [headerResult_eq] at h
  split at h
  · unfold walkR at h
    revert h
    generalize hw : walk ((d.drop 12).length / 8 + 1) (d.drop 12) Globals.zero = w
    cases w with
    | ok a =>
      obtain ⟨n, g1⟩ := a
      intro h
      simp only [bump, Res.ok.injEq, Prod.mk.injEq] at h
      have := walk_globals _ _ _ _ _ hw
      rw [h.2] at this
      rcases this.2 with e | e
      · exfalso
        rw [e] at this
        exact absurd this.1 (by decide)
      · exact e
    | fatal => intro h; exact Res.noConfusion h
    | outOfFuel => intro h; exact Res.noConfusion h
  · exact Res.noConfusion h

/-! ## The sample reader in closed form -/

theorem get_sample_streaming (t : ℚ) (p : Process) (f : FILE) (h : p.Streaming f) :
    ∃ p1 : Process, get_sample t p = Res.ok (frameValue f.rest 0, p1) ∧
      p1.Streaming (f.advance (min 4 f.rest.length)) ∧ p1.content = p.content := by
  obtain ⟨hw, hg⟩ := h
  have hsz : toSizeT (validGlobals.bytesPerSample * validGlobals.numChannels) = 4 := by decide
  unfold get_sample
  rw [hw, hg]
  simp only [Res.pure_eq, Res.ok_bind, hsz, fread, Nat.mul_one, List.length_take]
  have hlen : (f.data.drop f.pos).length = f.rest.length := rfl
  rw [hlen]
  by_cases h4 : 4 ≤ f.rest.length
  · have hm : min 4 f.rest.length = 4 := by omega
    rw [hm]
    rw [if_neg (by norm_num)]
    have htake : ((f.data.drop f.pos).take 4 ++ p.samples.drop 4).take 2 = f.rest.take 2 := by
      rw [List.take_append_of_le_length (by rw [List.length_take, hlen]; omega)]
      rw [List.take_take]
      rfl
    have hv : (sample0 ((f.data.drop f.pos).take 4 ++ p.samples.drop 4) : ℚ) * 1 / 32767
        = frameValue f.rest 0 := by
      simp only [frameValue, sample0, htake, Nat.mul_zero, Nat.zero_add, if_pos h4,
        List.drop_zero, mul_one]
    rw [hv]
    exact ⟨_, rfl, ⟨rfl, rfl⟩, rfl⟩
  · have hm : min 4 f.rest.length = f.rest.length := by omega
    rw [hm]
    rw [if_pos (Nat.div_eq_of_lt (by omega))]
    have hv : (0 : ℚ) = frameValue f.rest 0 := by
      simp only [frameValue, Nat.mul_zero, Nat.zero_add, if_neg h4]
    rw [hv]
    exact ⟨_, rfl, ⟨rfl, rfl⟩, rfl⟩

theorem frameValue_advance (r : List Byte) (k : Nat) :
    frameValue (r.drop (min 4 r.length)) k = frameValue r (k + 1) := by
  unfold frameValue
  by_cases h4 : 4 ≤ r.length
  · have hm : min 4 r.length = 4 := by omega
    rw [hm, List.length_drop, List.drop_drop]
    have e : 4 + 4 * k = 4 * (k + 1) := by omega
    rw [e]
    by_cases hk : 4 * (k + 1) + 4 ≤ r.length
    · rw [if_pos hk, if_pos (by omega)]
    · rw [if_neg hk, if_neg (by omega)]
  · rw [if_neg (by rw [List.length_drop]; omega), if_neg (by omega)]

theorem getSamples_streaming (ts : List ℚ) :
    ∀ (p : Process) (f : FILE), p.Streaming f →
      ∃ p1 : Process, getSamples ts p =
          Res.ok ((List.range ts.length).map (frameValue f.rest), p1) ∧
        p1.Streaming (f.advance (min (4 * ts.length) f.rest.length)) ∧
        p1.content = p.content := by
  induction ts with
  | nil =>
    intro p f h
    exact ⟨p, rfl, by simpa using h, rfl⟩
  | cons t ts ih =>
    intro p f h
    obtain ⟨p1, h1, hs1, hc1⟩ := get_sample_streaming t p f h
    obtain ⟨p2, h2, hs2, hc2⟩ := ih p1 _ hs1
    refine ⟨p2, ?_, ?_, by rw [hc2, hc1]⟩
    · simp only [getSamples, h1, h2, Res.ok_bind, Res.pure_eq, List.length_cons]
      rw [List.range_succ_eq_map, List.map_cons, List.map_map]
      congr 2
      congr 1
      apply List.map_congr_left
      intro k _
      simp only [Function.comp, FILE.rest_advance]
      exact frameValue_advance f.rest k
    · have e : (f.advance (min 4 f.rest.length)).advance
          (min (4 * ts.length) (f.advance (min 4 f.rest.length)).rest.length)
          = f.advance (min (4 * (t :: ts).length) f.rest.length) := by
        rw [FILE.advance_advance, FILE.rest_advance, List.length_drop, List.length_cons]
        congr 1
        omega
      rw [← e]
      exact hs2

theorem get_sample_start (t : ℚ) (d : List Byte) (f : FILE) (g : Globals)
    (h : init_file d Globals.zero = Res.ok (f, g)) :
    get_sample t (Process.start d) =
      get_sample t { content := d, g := g, wavfile := some f, samples := [0, 0, 0, 0] } := by
  unfold get_sample
  simp only [Process.start, h, Res.ok_bind, Res.pure_eq]

theorem get_sample_start_fatal (t : ℚ) (d : List Byte)
    (h : init_file d Globals.zero = Res.fatal) :
    get_sample t (Process.start d) = Res.fatal := by
  unfold get_sample
  simp only [Process.start, h, Res.fatal_bind]

/-- Successive calls on a fresh process, when the header is accepted. -/
theorem getSamples_start (d : List Byte) (p : Nat) (g : Globals)
    (h : headerResult d = Res.ok (p, g)) (t : ℚ) (ts : List ℚ) :
    ∃ p1 : Process, getSamples (t :: ts) (Process.start d) =
        Res.ok ((List.range (ts.length + 1)).map (frameValue (d.drop p)), p1) ∧
      p1.Streaming { data := d, pos := p + min (4 * (ts.length + 1)) (d.length - p) } := by
  have hg := headerResult_globals d p g h
  have hi := init_file_of_headerResult d p g h
  subst hg
  have hs : Process.Streaming
      { content := d, g := validGlobals, wavfile := some { data := d, pos := p },
        samples := [0, 0, 0, 0] } { data := d, pos := p } := ⟨rfl, rfl⟩
  obtain ⟨p1, h1, hs1, _⟩ := getSamples_streaming (t :: ts) _ _ hs
  refine ⟨p1, ?_, ?_⟩
  · have h2 := h1
    simp only [FILE.rest, List.length_cons] at h2
    rw [← h2]
    simp only [getSamples]
    rw [get_sample_start t d _ _ hi]
  · simpa [FILE.advance, FILE.rest] using hs1

theorem outputs_nil (d : List Byte) : outputs d [] = Res.ok [] := rfl

theorem outputs_ok (d : List Byte) (p : Nat) (g : Globals)
    (h : headerResult d = Res.ok (p, g)) (ts : List ℚ) :
    outputs d ts = Res.ok ((List.range ts.length).map (frameValue (d.drop p))) := by
  cases ts with
  | nil => rfl
  | cons t ts =>
    obtain ⟨p1, h1, _⟩ := getSamples_start d p g h t ts
    unfold outputs
    rw [h1]
    rfl

theorem outputs_fatal (d : List Byte) (h : headerResult d = Res.fatal) (t : ℚ) (ts : List ℚ) :
    outputs d (t :: ts) = Res.fatal := by
  unfold outputs
  simp only [getSamples]
  rw [get_sample_start_fatal t d ((headerResult_fatal_iff d).mp h)]
  rfl

/-! ## File layouts -/

@[simp] theorem leBytes_length (w v : Nat) : (leBytes w v).length = w := by
  induction w generalizing v with
  | zero => rfl
  | succ n ih => simp [leBytes, ih]

theorem leValue_leBytes (w : Nat) : ∀ v, v < 256 ^ w → leValue (leBytes w v) = v := by
  induction w with
  | zero => intro v h; simp at h; simp [leBytes, leValue, h]
  | succ n ih =>
    intro v h
    have h1 : v / 256 < 256 ^ n := by
      rw [pow_succ] at h
      exact Nat.div_lt_of_lt_mul (by rw [Nat.mul_comm]; exact h)
    simp only [leBytes, leValue, ih _ h1]
    omega

theorem Chunk.encode_length (c : Chunk) (h : c.tag.length = 4) :
    c.encode.length = 8 + c.payload.length := by
  simp [Chunk.encode, h]
  omega

theorem FmtOK_append (r tail : List Byte) : FmtOK (r ++ tail) r.length ↔ FmtOK r r.length := by
  have t : ∀ a b, a + b ≤ r.length → ((r ++ tail).drop a).take b = (r.drop a).take b := by
    intro a b hab
    rw [List.drop_append_of_le_length (by omega)]
    rw [List.take_append_of_le_length (by rw [List.length_drop]; omega)]
  have t0 : ∀ b, b ≤ r.length → (r ++ tail).take b = r.take b := by
    intro b hb
    rw [List.take_append_of_le_length hb]
  unfold FmtOK
  constructor
  · rintro ⟨h1, h2, h3, h4, h5, h6, h7, h8, h9⟩
    rw [t0 2 (by omega)] at h3
    rw [t 2 2 (by omega)] at h4
    rw [t 4 4 (by omega)] at h5
    rw [t 8 4 (by omega)] at h6
    rw [t 12 2 (by omega)] at h7
    rw [t 14 2 (by omega)] at h8
    refine ⟨h1, h1, h3, h4, h5, h6, h7, h8, ?_⟩
    rcases h9 with h9 | ⟨h9, h10⟩
    · exact Or.inl h9
    · right
      have : 18 ≤ r.length := by omega
      rw [t 16 2 (by omega)] at h10
      exact ⟨this, h10⟩
  · rintro ⟨h1, h2, h3, h4, h5, h6, h7, h8, h9⟩
    rw [← t0 2 (by omega)] at h3
    rw [← t 2 2 (by omega)] at h4
    rw [← t 4 4 (by omega)] at h5
    rw [← t 8 4 (by omega)] at h6
    rw [← t 12 2 (by omega)] at h7
    rw [← t 14 2 (by omega)] at h8
    refine ⟨h1, by rw [List.length_append]; omega, h3, h4, h5, h6, h7, h8, ?_⟩
    rcases h9 with h9 | ⟨h9, h10⟩
    · exact Or.inl h9
    · right
      rw [← t 16 2 (by omega)] at h10
      exact ⟨by rw [List.length_append]; omega, h10⟩

/-- The walker at a chunk that is not tagged "data". -/
theorem walkR_chunk (c : Chunk) (hc : c.WF) (hd : c.tag ≠ strData) (tail : List Byte)
    (g : Globals) :
    walkR (c.encode ++ tail) g =
      if c.tag = strFmt then
        if FmtOK c.payload c.payload.length then
          bump c.encode.length (walkR tail validGlobals)
        else Res.fatal
      else bump c.encode.length (walkR tail g) := by
  obtain ⟨ht, hp⟩ := hc
  have hlen : c.encode.length = 8 + c.payload.length := c.encode_length ht
  have e1 : (c.encode ++ tail).take 4 = c.tag := by
    simp [Chunk.encode, List.take_append_eq_append_take, ht]
  have e2 : ((c.encode ++ tail).drop 4).take 4 = leBytes 4 c.payload.length := by
    simp [Chunk.encode, List.drop_append_eq_append_drop, List.take_append_eq_append_take, ht]
  have e3 : (c.encode ++ tail).drop 8 = c.payload ++ tail := by
    simp [Chunk.encode, List.drop_append_eq_append_drop, ht]
  have e4 : (c.encode ++ tail).drop (8 + c.payload.length) = tail := by
    rw [← hlen]
    simp
  rw [walkR_step, e1, e2, leValue_leBytes 4 _ (by norm_num; omega), e3, e4]
  rw [if_pos (by rw [List.length_append]; omega), if_neg hd, hlen]
  simp only [FmtOK_append]

/-- The walker over a run of chunks none of which is tagged "data". -/
theorem walkR_chunks (cs : List Chunk) :
    ∀ (g : Globals) (tail : List Byte), (∀ c ∈ cs, c.WF ∧ c.tag ≠ strData) →
      walkR (encodeAll cs ++ tail) g =
        match afterChunks cs g with
        | some g1 => bump (encodeAll cs).length (walkR tail g1)
        | none => Res.fatal := by
  induction cs with
  | nil =>
    intro g tail _
    simp only [encodeAll, afterChunks, List.nil_append, List.length_nil]
    cases walkR tail g with
    | ok a => obtain ⟨n, g1⟩ := a; simp [bump]
    | fatal => rfl
    | outOfFuel => rfl
  | cons c cs ih =>
    intro g tail h
    have hc := h c (List.mem_cons_self _ _)
    have hcs : ∀ c1 ∈ cs, c1.WF ∧ c1.tag ≠ strData := fun c1 h1 => h c1 (List.mem_cons_of_mem _ h1)
    have hb : ∀ (a b : Nat) (x : Res (Nat × Globals)), bump a (bump b x) = bump (a + b) x := by
      intro a b x
      cases x with
      | ok y => obtain ⟨n, g1⟩ := y; simp [bump, Nat.add_assoc]
      | fatal => rfl
      | outOfFuel => rfl
    simp only [encodeAll, afterChunks, List.append_assoc, List.length_append]
    rw [walkR_chunk c hc.1 hc.2]
    by_cases hf : c.tag = strFmt
    · simp only [if_pos hf]
      by_cases hk : FmtOK c.payload c.payload.length
      · simp only [if_pos hk]
        rw [ih validGlobals tail hcs]
        cases afterChunks cs validGlobals with
        | some g1 => simp only [hb]
        | none => rfl
      · simp only [if_neg hk]
    · simp only [if_neg hf]
      rw [ih g tail hcs]
      cases afterChunks cs g with
      | some g1 => simp only [hb]
      | none => rfl

/-- The walker at a chunk header tagged "data". -/
theorem walkR_data (len tail : List Byte) (hlen : len.length = 4) (g : Globals) :
    walkR (strData ++ len ++ tail) g = if DataOK g then Res.ok (8, g) else Res.fatal := by
  rw [walkR_step]
  have e1 : (strData ++ len ++ tail).take 4 = strData := by
    simp [strData]
  rw [e1, if_pos (by simp [strData, hlen]), if_neg (by decide), if_pos rfl]

theorem riffHead_length (size : List Byte) (cs : List Chunk) (hsize : size.length = 4) :
    (riffHead size cs).length = 12 + (encodeAll cs).length := by
  simp [riffHead, strRIFF, strWAVE, hsize]
  omega

theorem headerResult_preamble (size : List Byte) (hsize : size.length = 4) (body : List Byte) :
    headerResult (strRIFF ++ size ++ strWAVE ++ body) = bump 12 (walkR body Globals.zero) := by
  rw [headerResult_eq]
  have h1 : HeaderOK (strRIFF ++ size ++ strWAVE ++ body) := by
    refine ⟨by simp [strRIFF, strWAVE, hsize]; omega, by simp [strRIFF], ?_⟩
    simp [strRIFF, strWAVE, List.drop_append_eq_append_drop, List.take_append_eq_append_take, hsize]
  have h2 : (strRIFF ++ size ++ strWAVE ++ body).drop 12 = body := by
    have : (strRIFF ++ size ++ strWAVE).length = 12 := by simp [strRIFF, strWAVE, hsize]
    rw [← this]
    simp
  rw [if_pos h1, h2]

theorem bump_bump (a b : Nat) (x : Res (Nat × Globals)) : bump a (bump b x) = bump (a + b) x := by
  cases x with
  | ok y => obtain ⟨n, g1⟩ := y; simp [bump, Nat.add_assoc]
  | fatal => rfl
  | outOfFuel => rfl

/-- The header result of a file that starts with the preamble and a run of chunks none of
which is tagged "data". -/
theorem headerResult_chunks (size : List Byte) (hsize : size.length = 4) (cs : List Chunk)
    (hcs : ∀ c ∈ cs, c.WF ∧ c.tag ≠ strData) (tail : List Byte) :
    headerResult (riffHead size cs ++ tail) =
      bump (riffHead size cs).length (walkAfter cs tail) := by
  have e : riffHead size cs ++ tail = strRIFF ++ size ++ strWAVE ++ (encodeAll cs ++ tail) := by
    simp [riffHead, List.append_assoc]
  rw [e, headerResult_preamble size hsize, walkR_chunks cs _ _ hcs, riffHead_length size cs hsize]
  unfold walkAfter
  cases afterChunks cs Globals.zero with
  | some g1 => simp only [bump_bump]
  | none => rfl

theorem outputs_layout (A tail : List Byte) (x : Res (Nat × Globals))
    (h : headerResult (A ++ tail) = bump A.length x) (ts : List ℚ) :
    outputs (A ++ tail) ts = outputsOf x tail ts := by
  cases x with
  | ok y =>
    obtain ⟨m, g⟩ := y
    rw [outputs_ok _ _ _ h]
    simp only [outputsOf]
    rw [← List.drop_drop, List.drop_left]
  | fatal =>
    cases ts with
    | nil => rfl
    | cons t ts =>
      rw [outputs_fatal _ h]
      simp [outputsOf]
  | outOfFuel => exact absurd h (headerResult_ne_outOfFuel _)

theorem afterChunks_valid (cs : List Chunk) :
    ∀ g : Globals, (∀ c ∈ cs, c.IsFmt ∨ c.IsUnknown) →
      afterChunks cs g = some (if ∃ c ∈ cs, c.IsFmt then validGlobals else g) := by
  induction cs with
  | nil => intro g _; simp [afterChunks]
  | cons c cs ih =>
    intro g h
    have hcs : ∀ c1 ∈ cs, c1.IsFmt ∨ c1.IsUnknown := fun c1 h1 => h c1 (List.mem_cons_of_mem _ h1)
    rcases h c (List.mem_cons_self _ _) with hc | hc
    · have e : ∃ c1 ∈ c :: cs, c1.IsFmt := ⟨c, List.mem_cons_self _ _, hc⟩
      rw [if_pos e]
      simp only [afterChunks, if_pos hc.2.1, if_pos hc.2.2]
      rw [ih validGlobals hcs]
      simp
    · have hn : ¬ c.IsFmt := fun hf => hc.2.1 hf.2.1
      simp only [afterChunks, if_neg hc.2.1]
      rw [ih g hcs]
      simp [hn]

theorem two_bytes_at (l : List Byte) (i : Nat) (h : i + 1 < l.length) :
    leValue ((l.drop i).take 2) = (l.getD i 0).val + 256 * (l.getD (i + 1) 0).val := by
  have h1 : l.drop i = l.getD i 0 :: l.getD (i + 1) 0 :: l.drop (i + 2) := by
    rw [List.getD_eq_getElem l 0 (by omega), List.getD_eq_getElem l 0 h]
    rw [List.drop_eq_getElem_cons (by omega : i < l.length), List.drop_eq_getElem_cons h]
  rw [h1]
  simp [leValue]

theorem headerResult_wavFile (size : List Byte) (hsize : size.length = 4) (cs : List Chunk)
    (hcs : ∀ c ∈ cs, c.IsFmt ∨ c.IsUnknown) (hfmt : ∃ c ∈ cs, c.IsFmt)
    (payload trailer : List Byte) :
    headerResult (wavFile size cs payload trailer) =
      bump (riffHead size cs).length (Res.ok (8, validGlobals)) := by
  have hwf : ∀ c ∈ cs, c.WF ∧ c.tag ≠ strData := by
    intro c hc
    rcases hcs c hc with h | h
    · exact ⟨h.1, by rw [h.2.1]; decide⟩
    · exact ⟨h.1, h.2.2⟩
  unfold wavFile
  rw [headerResult_chunks size hsize cs hwf]
  unfold walkAfter
  rw [afterChunks_valid cs _ hcs, if_pos hfmt]
  simp only
  rw [walkR_data _ _ (leBytes_length 4 _), if_pos (by decide)]

theorem frameValue_payload (payload trailer : List Byte) (k : Nat)
    (hk : 4 * k + 4 ≤ payload.length) :
    frameValue (payload ++ trailer) k = (leftRaw payload k : ℚ) / 32767 := by
  unfold frameValue leftRaw
  rw [if_pos (by rw [List.length_append]; omega)]
  rw [List.drop_append_of_le_length (by omega)]
  rw [List.take_append_of_le_length (by rw [List.length_drop]; omega)]
  rw [two_bytes_at payload (4 * k) (by omega)]

theorem outputs_wavFile (size : List Byte) (hsize : size.length = 4) (cs : List Chunk)
    (hcs : ∀ c ∈ cs, c.IsFmt ∨ c.IsUnknown) (hfmt : ∃ c ∈ cs, c.IsFmt)
    (payload trailer : List Byte) (ts : List ℚ) (hN : ts.length ≤ payload.length / 4) :
    outputs (wavFile size cs payload trailer) ts =
      Res.ok ((List.range ts.length).map fun k => (leftRaw payload k : ℚ) / 32767) := by
  have h := headerResult_wavFile size hsize cs hcs hfmt payload trailer
  unfold wavFile at h ⊢
  rw [outputs_layout _ _ _ h]
  simp only [outputsOf]
  have e : (strData ++ leBytes 4 payload.length ++ (payload ++ trailer)).drop 8
      = payload ++ trailer := by
    have : (strData ++ leBytes 4 payload.length).length = 8 := by simp [strData]
    rw [← this]
    simp
  rw [e]
  congr 1
  apply List.map_congr_left
  intro k hk
  rw [List.mem_range] at hk
  exact frameValue_payload payload trailer k (by omega)

theorem leftRaw_eq_leftSample (payload : List Byte) (k : Nat) :
    leftRaw payload k = leftSample payload k := by
  unfold leftRaw leftSample signed16 toInt16
  have h0 := (payload.getD (4 * k) 0).isLt
  have h1 := (payload.getD (4 * k + 1) 0).isLt
  generalize (payload.getD (4 * k) 0).val = lo at *
  generalize (payload.getD (4 * k + 1) 0).val = hi at *
  have e : (lo + 256 * hi) % 2 ^ 16 = lo + 256 * hi := Nat.mod_eq_of_lt (by omega)
  rw [e]
  by_cases h : hi < 128
  · rw [if_pos (by omega), if_pos h]
    push_cast
    ring
  · rw [if_neg (by omega), if_neg h]
    push_cast
    ring

theorem encodeAllPadded_even (cs : List Chunk) (h : ∀ c ∈ cs, c.payload.length % 2 = 0) :
    encodeAllPadded cs = encodeAll cs := by
  induction cs with
  | nil => rfl
  | cons c cs ih =>
    have hc := h c (List.mem_cons_self _ _)
    simp only [encodeAllPadded, encodeAll, Chunk.encodePadded]
    rw [if_neg (by omega), List.append_nil, ih (fun c1 h1 => h c1 (List.mem_cons_of_mem _ h1))]

theorem riffFile_even (size : List Byte) (cs : List Chunk) (payload trailer : List Byte)
    (h : ∀ c ∈ cs, c.payload.length % 2 = 0) :
    riffFile size cs payload trailer = wavFile size cs payload trailer := by
  unfold riffFile wavFile riffHead
  rw [encodeAllPadded_even cs h]

/-- C1 (as stated) fails: the file is a RIFF/WAVE byte sequence with a format chunk of
the supported profile, then a "LIST" chunk of three bytes with its padding byte, then a
"data" chunk whose one frame is fully present; yet `readHeader` terminates the process
and the first call of `get_sample` returns no value, where the claim says it returns
`1 / 32767`. -/
theorem C1_counterexample :
    (Chunk.mk strFmt fmtBase).IsFmt ∧ (Chunk.mk [76, 73, 83, 84] [1, 2, 3]).IsUnknown ∧
      [(0 : ℚ)].length ≤ [(1 : Byte), 0, 2, 0].length / 4 ∧
      headerResult paddedFile = Res.fatal ∧
      outputs paddedFile [0] = Res.fatal ∧
      outputs paddedFile [0] ≠ Res.ok [(leftSample [1, 0, 2, 0] 0 : ℚ) / 32767] := by
  have h : headerResult paddedFile = Res.fatal := by decide
  have ho : outputs paddedFile [0] = Res.fatal := outputs_fatal _ h 0 []
  refine ⟨by decide, by decide, by decide, h, ho, ?_⟩
  rw [ho]
  exact fun e => Res.noConfusion e

/-- C1 (amended): for a RIFF/WAVE file whose chunks before the "data" chunk are format
chunks of the supported profile (at least one) or chunks with other tags, each laid out
as tag, length and exactly that many payload bytes with no padding byte after it, and
whose data payload is fully present, the first `N` calls of `get_sample` (`N` at most
the number of 4-byte frames of the payload) return `raw_k / 32767`, where `raw_k` is the
signed 16-bit little-endian integer formed by payload bytes `4k` and `4k+1`; a payload
that agrees on these bytes gives the same values, whatever its bytes `4k+2` and `4k+3`
are; and the same holds of a file in the RIFF layout whose chunks before "data" all
have even length. -/
theorem C1_left_samples_without_padding (size : List Byte) (cs : List Chunk)
    (payload trailer : List Byte) (ts : List ℚ)
    (hsize : size.length = 4)
    (hcs : ∀ c ∈ cs, c.IsFmt ∨ c.IsUnknown) (hfmt : ∃ c ∈ cs, c.IsFmt)
    (hN : ts.length ≤ payload.length / 4) :
    outputs (wavFile size cs payload trailer) ts =
        Res.ok ((List.range ts.length).map fun k => (leftSample payload k : ℚ) / 32767) ∧
      (∀ payload1 : List Byte, payload1.length = payload.length →
        (∀ k, k < ts.length → payload1.getD (4 * k) 0 = payload.getD (4 * k) 0 ∧
          payload1.getD (4 * k + 1) 0 = payload.getD (4 * k + 1) 0) →
        outputs (wavFile size cs payload1 trailer) ts =
          outputs (wavFile size cs payload trailer) ts) ∧
      ((∀ c ∈ cs, c.payload.length % 2 = 0) →
        outputs (riffFile size cs payload trailer) ts =
          Res.ok ((List.range ts.length).map fun k => (leftSample payload k : ℚ) / 32767)) := by
  have key : ∀ p : List Byte, ts.length ≤ p.length / 4 →
      outputs (wavFile size cs p trailer) ts =
        Res.ok ((List.range ts.length).map fun k => (leftSample p k : ℚ) / 32767) := by
    intro p hp
    rw [outputs_wavFile size hsize cs hcs hfmt p trailer ts hp]
    congr 1
    apply List.map_congr_left
    intro k _
    rw [leftRaw_eq_leftSample]
  refine ⟨key payload hN, ?_, ?_⟩
  · intro payload1 hlen hagree
    rw [key payload hN, key payload1 (by rw [hlen]; exact hN)]
    congr 1
    apply List.map_congr_left
    intro k hk
    rw [List.mem_range] at hk
    unfold leftSample
    rw [(hagree k hk).1, (hagree k hk).2]
  · intro heven
    rw [riffFile_even size cs payload trailer heven]
    exact key payload hN

theorem C1_left_samples_without_padding_witness :
    outputs (wavFile [36, 0, 0, 0] [⟨strFmt, fmtBase⟩] [0x34, 0x12, 9, 9, 0, 0x80, 7, 7] [])
        [0, 0] = Res.ok [4660 / 32767, -32768 / 32767] := by
  have h := (C1_left_samples_without_padding [36, 0, 0, 0] [⟨strFmt, fmtBase⟩]
    [0x34, 0x12, 9, 9, 0, 0x80, 7, 7] [] [0, 0] rfl (by decide) (by decide) (by decide)).1
  have e0 : leftSample [0x34, 0x12, 9, 9, 0, 0x80, 7, 7] 0 = 4660 := by decide
  have e1 : leftSample [0x34, 0x12, 9, 9, 0, 0x80, 7, 7] 1 = -32768 := by decide
  have e : (List.range [(0 : ℚ), 0].length).map
      (fun k => (leftSample [0x34, 0x12, 9, 9, 0, 0x80, 7, 7] k : ℚ) / 32767)
      = [(leftSample [0x34, 0x12, 9, 9, 0, 0x80, 7, 7] 0 : ℚ) / 32767,
         (leftSample [0x34, 0x12, 9, 9, 0, 0x80, 7, 7] 1 : ℚ) / 32767] := rfl
  rw [h, e, e0, e1]
  norm_num

theorem bump_fatal_iff (k : Nat) (x : Res (Nat × Globals)) :
    bump k x = Res.fatal ↔ x = Res.fatal := by
  cases x with
  | ok a => obtain ⟨n, g⟩ := a; simp [bump]
  | fatal => simp [bump]
  | outOfFuel => simp [bump]

theorem readHeader_fatal_of_headerResult (d : List Byte) (h : headerResult d = Res.fatal) :
    readHeader { data := d, pos := 0 } Globals.zero = Res.fatal :=
  (headerResult_fatal_iff d).mp h

/-- The walker at a chunk header tagged "fmt ". -/
theorem walkR_fmt (len body : List Byte) (hlen : len.length = 4) (g : Globals) :
    walkR (strFmt ++ len ++ body) g =
      if FmtOK body (leValue len) then
        bump (8 + leValue len) (walkR (body.drop (leValue len)) validGlobals)
      else Res.fatal := by
  rw [walkR_step]
  have e1 : (strFmt ++ len ++ body).take 4 = strFmt := by simp [strFmt]
  have e2 : ((strFmt ++ len ++ body).drop 4).take 4 = len := by
    simp [strFmt, List.take_append_eq_append_take, hlen]
  have e3 : ∀ m, (strFmt ++ len ++ body).drop (8 + m) = body.drop m := by
    intro m
    have : (strFmt ++ len).length = 8 := by simp [strFmt, hlen]
    rw [← this, ← List.drop_drop, List.drop_left]
  have e4 : (strFmt ++ len ++ body).drop 8 = body := e3 0
  rw [e1, e2, e3, e4, if_pos (by simp [strFmt, hlen]), if_pos rfl]

/-- C2: when the chunk walker, having passed chunks none of which is tagged "data",
meets a "fmt " chunk that declares a format tag other than 1, a channel count other
than 2, a sample rate other than 44100 or a bit depth other than 16, `readHeader`
terminates the process and no call of `get_sample` returns a value. -/
theorem C2_unsupported_format_rejected (size : List Byte) (cs : List Chunk)
    (len body : List Byte)
    (hsize : size.length = 4) (hcs : ∀ c ∈ cs, c.WF ∧ c.tag ≠ strData) (hlen : len.length = 4)
    (hbad : leValue (body.take 2) ≠ 1 ∨ leValue ((body.drop 2).take 2) ≠ 2 ∨
      leValue ((body.drop 4).take 4) ≠ 44100 ∨ leValue ((body.drop 14).take 2) ≠ 16) :
    readHeader { data := riffHead size cs ++ (strFmt ++ len ++ body), pos := 0 } Globals.zero
        = Res.fatal ∧
      ∀ (t : ℚ) (ts : List ℚ),
        outputs (riffHead size cs ++ (strFmt ++ len ++ body)) (t :: ts) = Res.fatal := by
  have hk : ¬ FmtOK body (leValue len) := by
    rintro ⟨_, _, h3, h4, h5, _, _, h8, _⟩
    rcases hbad with h | h | h | h
    · exact h h3
    · exact h h4
    · exact h h5
    · exact h h8
  have h : headerResult (riffHead size cs ++ (strFmt ++ len ++ body)) = Res.fatal := by
    rw [headerResult_chunks size hsize cs hcs, bump_fatal_iff]
    unfold walkAfter
    cases afterChunks cs Globals.zero with
    | some g1 =>
      simp only
      rw [walkR_fmt len body hlen, if_neg hk]
    | none => rfl
  exact ⟨readHeader_fatal_of_headerResult _ h, fun t ts => outputs_fatal _ h t ts⟩

theorem C2_unsupported_format_rejected_witness :
    readHeader
        { data := riffHead [36, 0, 0, 0] [⟨[76, 73, 83, 84], [1, 2]⟩] ++
            (strFmt ++ [16, 0, 0, 0] ++
              [1, 0, 2, 0, 0x80, 0xBB, 0, 0, 0, 0xEE, 0x02, 0, 4, 0, 16, 0, 100, 97, 116, 97,
                0, 0, 0, 0]),
          pos := 0 } Globals.zero = Res.fatal :=
  (C2_unsupported_format_rejected [36, 0, 0, 0] [⟨[76, 73, 83, 84], [1, 2]⟩] [16, 0, 0, 0]
    [1, 0, 2, 0, 0x80, 0xBB, 0, 0, 0, 0xEE, 0x02, 0, 4, 0, 16, 0, 100, 97, 116, 97, 0, 0, 0, 0]
    rfl (by decide) rfl (by decide)).1

theorem frameValue_bounds (r : List Byte) (k : Nat) :
    (-32768 : ℚ) / 32767 ≤ frameValue r k ∧ frameValue r k ≤ 1 := by
  unfold frameValue
  split
  · generalize leValue ((r.drop (4 * k)).take 2) = v
    have h1 : (-32768 : Int) ≤ toInt16 v ∧ toInt16 v ≤ 32767 := by
      unfold toInt16
      split <;> omega
    have h2 : (-32768 : ℚ) ≤ (toInt16 v : ℚ) := by exact_mod_cast h1.1
    have h3 : (toInt16 v : ℚ) ≤ 32767 := by exact_mod_cast h1.2
    constructor
    · exact div_le_div_of_nonneg_right h2 (by norm_num)
    · rw [div_le_one (by norm_num)]
      exact h3
  · norm_num

theorem frameValue_eq_zero (r : List Byte) (k : Nat) (h : r.length < 4 * k + 4) :
    frameValue r k = 0 := by
  unfold frameValue
  rw [if_neg (by omega)]

theorem frameValue_of_raw (r : List Byte) (k : Nat) (v : Int) (hlen : 4 * k + 4 ≤ r.length)
    (hv : toInt16 (leValue ((r.drop (4 * k)).take 2)) = v) :
    frameValue r k = (v : ℚ) / 32767 := by
  unfold frameValue
  rw [if_pos hlen, hv]

/-- C3 (as stated) fails: the file is accepted, its "data" chunk declares `4 * 1` bytes,
and the second call of `get_sample` returns a value that is not zero (it is formed from
the first bytes of the chunk that follows the data). -/
theorem C3_counterexample :
    headerResult trailingChunkFile = Res.ok (44, validGlobals) ∧
      leValue ((trailingChunkFile.drop 40).take 4) = 4 * 1 ∧
      outputs trailingChunkFile [0, 0] = Res.ok [1 / 32767, 18764 / 32767] ∧
      (18764 / 32767 : ℚ) ≠ 0 := by
  have h : headerResult trailingChunkFile = Res.ok (44, validGlobals) := by decide
  refine ⟨h, by decide, ?_, by norm_num⟩
  rw [outputs_ok _ _ _ h]
  have e : (List.range [(0 : ℚ), 0].length).map (frameValue (trailingChunkFile.drop 44))
      = [frameValue (trailingChunkFile.drop 44) 0, frameValue (trailingChunkFile.drop 44) 1] :=
    rfl
  rw [e, frameValue_of_raw _ 0 1 (by decide) (by decide),
    frameValue_of_raw _ 1 18764 (by decide) (by decide)]
  norm_num

/-- C3 (amended): for a file accepted by `readHeader` in which fewer than `N + 1`
complete 4-byte frames lie between the start of the data payload and the end of the
file, every call of `get_sample` returns, and the `(N+1)`-th call and every later call
return exactly 0. -/
theorem C3_zero_after_last_frame (d : List Byte) (p : Nat) (g : Globals) (N : Nat)
    (ts : List ℚ) (hacc : headerResult d = Res.ok (p, g)) (hN : d.length - p < 4 * (N + 1)) :
    ∃ vs : List ℚ, outputs d ts = Res.ok vs ∧ vs.length = ts.length ∧
      ∀ k, N ≤ k → k < ts.length → vs[k]? = some 0 := by
  refine ⟨_, outputs_ok d p g hacc ts, by simp, ?_⟩
  intro k hNk hk
  rw [List.getElem?_map, List.getElem?_range hk]
  simp only [Option.map_some']
  rw [frameValue_eq_zero _ _ (by rw [List.length_drop]; omega)]

theorem C3_zero_after_last_frame_witness :
    ∃ vs : List ℚ, outputs minSampleFile [0, 0, 0] = Res.ok vs ∧
      vs.length = [(0 : ℚ), 0, 0].length ∧
      ∀ k, 1 ≤ k → k < [(0 : ℚ), 0, 0].length → vs[k]? = some 0 :=
  C3_zero_after_last_frame minSampleFile 44 validGlobals 1 [0, 0, 0] (by decide) (by decide)

/-- The walker at a "data" tag while the format state is still the zero-initialised one. -/
theorem walkR_data_zero (tail : List Byte) :
    walkR (strData ++ tail) Globals.zero = Res.fatal := by
  rw [walkR_step]
  have e1 : (strData ++ tail).take 4 = strData := by simp [strData]
  rw [e1, if_neg (by decide : ¬ strData = strFmt), if_pos rfl,
    if_neg (by decide : ¬ DataOK Globals.zero)]
  simp

theorem afterChunks_unknown (cs : List Chunk) (g : Globals) (h : ∀ c ∈ cs, c.IsUnknown) :
    afterChunks cs g = some g := by
  induction cs with
  | nil => rfl
  | cons c cs ih =>
    simp only [afterChunks, if_neg (h c (List.mem_cons_self _ _)).2.1]
    exact ih (fun c1 h1 => h c1 (List.mem_cons_of_mem _ h1))

/-- C4: started from the zero-initialised format state, `readHeader` terminates the
process on every RIFF/WAVE file in which the first chunk tagged "fmt " or "data" is a
"data" chunk, that is, in which only chunks with other tags precede the first "data"
tag; in particular on a file with chunks ordered data, fmt. -/
theorem C4_data_before_fmt_rejected (size : List Byte) (cs : List Chunk) (tail : List Byte)
    (hsize : size.length = 4) (hcs : ∀ c ∈ cs, c.IsUnknown) :
    readHeader { data := riffHead size cs ++ (strData ++ tail), pos := 0 } Globals.zero
      = Res.fatal := by
  apply readHeader_fatal_of_headerResult
  rw [headerResult_chunks size hsize cs (fun c hc => ⟨(hcs c hc).1, (hcs c hc).2.2⟩),
    bump_fatal_iff]
  unfold walkAfter
  rw [afterChunks_unknown cs _ hcs]
  exact walkR_data_zero tail

theorem C4_data_before_fmt_rejected_witness :
    readHeader
        { data := riffHead [40, 0, 0, 0] [] ++
            (strData ++ ([4, 0, 0, 0] ++ [1, 0, 2, 0] ++ Chunk.encode ⟨strFmt, fmtBase⟩)),
          pos := 0 } Globals.zero = Res.fatal :=
  C4_data_before_fmt_rejected [40, 0, 0, 0] []
    ([4, 0, 0, 0] ++ [1, 0, 2, 0] ++ Chunk.encode ⟨strFmt, fmtBase⟩) rfl (by decide)

theorem bump_eq_ok (k : Nat) (x : Res (Nat × Globals)) (p : Nat) (g : Globals)
    (h : bump k x = Res.ok (p, g)) : ∃ m, x = Res.ok (m, g) ∧ p = k + m := by
  cases x with
  | ok a =>
    obtain ⟨n, g1⟩ := a
    simp only [bump, Res.ok.injEq, Prod.mk.injEq] at h
    exact ⟨n, by rw [h.2], h.1.symm⟩
  | fatal => exact Res.noConfusion h
  | outOfFuel => exact Res.noConfusion h

theorem walkAfter_unknown (cs : List Chunk) (u : Chunk) (hu : u.IsUnknown) (tail : List Byte) :
    walkAfter cs (u.encode ++ tail) = bump u.encode.length (walkAfter cs tail) := by
  unfold walkAfter
  cases afterChunks cs Globals.zero with
  | some g1 =>
    simp only
    rw [walkR_chunk u hu.1 hu.2.2, if_neg hu.2.1]
  | none => rfl

/-- C5: if a file is accepted by `readHeader`, then inserting, at a chunk boundary that
the walker reaches before the "data" chunk, a chunk whose tag is neither "fmt " nor
"data", with any payload of the declared length, gives a file that is accepted too,
with the same format state, the cursor further by the length of the inserted chunk, and
the same `get_sample` values. -/
theorem C5_unknown_chunk_insertion (size : List Byte) (cs : List Chunk) (u : Chunk)
    (tail : List Byte) (p : Nat) (g : Globals)
    (hsize : size.length = 4) (hcs : ∀ c ∈ cs, c.WF ∧ c.tag ≠ strData) (hu : u.IsUnknown)
    (hacc : headerResult (riffHead size cs ++ tail) = Res.ok (p, g)) :
    headerResult (riffHead size cs ++ (u.encode ++ tail)) = Res.ok (p + u.encode.length, g) ∧
      ∀ ts : List ℚ,
        outputs (riffHead size cs ++ (u.encode ++ tail)) ts =
          outputs (riffHead size cs ++ tail) ts := by
  have h0 := headerResult_chunks size hsize cs hcs tail
  have h1 := headerResult_chunks size hsize cs hcs (u.encode ++ tail)
  rw [walkAfter_unknown cs u hu tail] at h1
  rw [hacc] at h0
  obtain ⟨m, hm, hp⟩ := bump_eq_ok _ _ _ _ h0.symm
  constructor
  · rw [h1, hm]
    simp only [bump, hp]
    congr 2
    omega
  · intro ts
    rw [outputs_layout _ _ _ h1, outputs_layout _ _ _ (hacc.trans h0), hm]
    simp only [bump, outputsOf]
    rw [← List.drop_drop, List.drop_left]

theorem C5_unknown_chunk_insertion_witness :
    headerResult (riffHead [52, 0, 0, 0] [⟨strFmt, fmtBase⟩] ++
        (Chunk.encode ⟨[76, 73, 83, 84], [7, 7, 7]⟩ ++
          (strData ++ [4, 0, 0, 0] ++ [1, 0, 2, 0]))) =
      Res.ok (44 + (Chunk.encode ⟨[76, 73, 83, 84], [7, 7, 7]⟩).length, validGlobals) :=
  (C5_unknown_chunk_insertion [52, 0, 0, 0] [⟨strFmt, fmtBase⟩] ⟨[76, 73, 83, 84], [7, 7, 7]⟩
    (strData ++ [4, 0, 0, 0] ++ [1, 0, 2, 0]) 44 validGlobals rfl (by decide) (by decide)
    (by decide)).1

theorem FmtOK_ext (base ext ext1 : List Byte) (hbase : base.length = 16)
    (hext : ext1.length = ext.length) :
    FmtOK (extFmtChunk base ext1).payload (extFmtChunk base ext1).payload.length ↔
      FmtOK (extFmtChunk base ext).payload (extFmtChunk base ext).payload.length := by
  have key : ∀ e : List Byte, e.length = ext.length →
      (FmtOK (extFmtChunk base e).payload (extFmtChunk base e).payload.length ↔
        FmtOK (base ++ leBytes 2 ext.length) (18 + ext.length)) := by
    intro e he
    have hl : (extFmtChunk base e).payload.length = 18 + ext.length := by
      simp [extFmtChunk, hbase, he]; omega
    have hp : (extFmtChunk base e).payload = (base ++ leBytes 2 ext.length) ++ e := by
      simp [extFmtChunk, he]
    have hl2 : (base ++ leBytes 2 ext.length).length = 18 := by simp [hbase]
    have t : ∀ a b, a + b ≤ 18 →
        (((base ++ leBytes 2 ext.length) ++ e).drop a).take b
          = ((base ++ leBytes 2 ext.length).drop a).take b := by
      intro a b hab
      rw [List.drop_append_of_le_length (by omega)]
      rw [List.take_append_of_le_length (by rw [List.length_drop]; omega)]
    have t0 : ∀ b, b ≤ 18 →
        ((base ++ leBytes 2 ext.length) ++ e).take b = (base ++ leBytes 2 ext.length).take b := by
      intro b hb
      rw [List.take_append_of_le_length (by omega)]
    rw [hl, hp]
    unfold FmtOK
    rw [t0 2 (by omega), t 2 2 (by omega), t 4 4 (by omega), t 8 4 (by omega), t 12 2 (by omega),
      t 14 2 (by omega), t 16 2 (by omega), List.length_append, hl2]
    constructor
    · rintro ⟨h1, _, h3, h4, h5, h6, h7, h8, h9⟩
      refine ⟨h1, by omega, h3, h4, h5, h6, h7, h8, ?_⟩
      rcases h9 with h9 | ⟨_, h10⟩
      · exact Or.inl h9
      · exact Or.inr ⟨by omega, h10⟩
    · rintro ⟨h1, _, h3, h4, h5, h6, h7, h8, h9⟩
      refine ⟨h1, by omega, h3, h4, h5, h6, h7, h8, ?_⟩
      rcases h9 with h9 | ⟨_, h10⟩
      · exact Or.inl h9
      · exact Or.inr ⟨by omega, h10⟩
  rw [key ext1 hext, key ext rfl]

theorem walkAfter_ext (cs : List Chunk) (base ext ext1 : List Byte) (hbase : base.length = 16)
    (hext : ext1.length = ext.length) (hE : ext.length < 65536) (tail : List Byte) :
    walkAfter cs ((extFmtChunk base ext1).encode ++ tail) =
      walkAfter cs ((extFmtChunk base ext).encode ++ tail) ∧
    ∃ x, walkAfter cs ((extFmtChunk base ext).encode ++ tail) =
      bump (extFmtChunk base ext).encode.length x ∧
      walkAfter cs ((extFmtChunk base ext1).encode ++ tail) =
      bump (extFmtChunk base ext1).encode.length x := by
  have hwf : ∀ e : List Byte, e.length = ext.length → (extFmtChunk base e).WF := by
    intro e he
    refine ⟨rfl, ?_⟩
    simp [extFmtChunk, hbase, he]
    omega
  have hlen : (extFmtChunk base ext1).encode.length = (extFmtChunk base ext).encode.length := by
    rw [Chunk.encode_length _ (hwf ext1 hext).1, Chunk.encode_length _ (hwf ext rfl).1]
    simp [extFmtChunk, hext]
  have hfd : strFmt ≠ strData := by decide
  have hd : (extFmtChunk base ext).tag ≠ strData := hfd
  have hd1 : (extFmtChunk base ext1).tag ≠ strData := hfd
  have hf : (extFmtChunk base ext).tag = strFmt := rfl
  have hf1 : (extFmtChunk base ext1).tag = strFmt := rfl
  unfold walkAfter
  cases afterChunks cs Globals.zero with
  | some g1 =>
    simp only
    rw [walkR_chunk _ (hwf ext1 hext) hd1, walkR_chunk _ (hwf ext rfl) hd, if_pos hf, if_pos hf1,
      hlen]
    by_cases hk : FmtOK (extFmtChunk base ext).payload (extFmtChunk base ext).payload.length
    · rw [if_pos hk, if_pos ((FmtOK_ext base ext ext1 hbase hext).mpr hk)]
      exact ⟨rfl, _, rfl, rfl⟩
    · rw [if_neg hk, if_neg (fun h => hk ((FmtOK_ext base ext ext1 hbase hext).mp h))]
      exact ⟨rfl, Res.fatal, rfl, rfl⟩
  | none => exact ⟨rfl, Res.fatal, rfl, rfl⟩

/-- C6: two files that differ only in the content of the extension payload of an
extended "fmt " chunk met by the chunk walker (declared length `18 + extendedSize`, the
same `extendedSize`, payload fully present) give the same result of `readHeader`
(both are accepted with the same cursor and format state, or both are rejected) and the
same `get_sample` values. -/
theorem C6_extension_payload_ignored (size : List Byte) (cs : List Chunk)
    (base ext ext1 tail : List Byte)
    (hsize : size.length = 4) (hcs : ∀ c ∈ cs, c.WF ∧ c.tag ≠ strData)
    (hbase : base.length = 16) (hext : ext1.length = ext.length) (hE : ext.length < 65536) :
    headerResult (riffHead size cs ++ ((extFmtChunk base ext1).encode ++ tail)) =
        headerResult (riffHead size cs ++ ((extFmtChunk base ext).encode ++ tail)) ∧
      ∀ ts : List ℚ,
        outputs (riffHead size cs ++ ((extFmtChunk base ext1).encode ++ tail)) ts =
          outputs (riffHead size cs ++ ((extFmtChunk base ext).encode ++ tail)) ts := by
  have h0 := headerResult_chunks size hsize cs hcs ((extFmtChunk base ext).encode ++ tail)
  have h1 := headerResult_chunks size hsize cs hcs ((extFmtChunk base ext1).encode ++ tail)
  obtain ⟨he, x, hx, hx1⟩ := walkAfter_ext cs base ext ext1 hbase hext hE tail
  constructor
  · rw [h0, h1, he]
  · intro ts
    have a0 : headerResult ((riffHead size cs ++ (extFmtChunk base ext).encode) ++ tail) =
        bump (riffHead size cs ++ (extFmtChunk base ext).encode).length x := by
      rw [List.append_assoc, h0, hx, bump_bump, List.length_append]
    have a1 : headerResult ((riffHead size cs ++ (extFmtChunk base ext1).encode) ++ tail) =
        bump (riffHead size cs ++ (extFmtChunk base ext1).encode).length x := by
      rw [List.append_assoc, h1, hx1, bump_bump, List.length_append]
    rw [← List.append_assoc, ← List.append_assoc, outputs_layout _ _ _ a0,
      outputs_layout _ _ _ a1]

theorem C6_extension_payload_ignored_witness :
    headerResult (riffHead [60, 0, 0, 0] [] ++
        ((extFmtChunk fmtBase [9, 9]).encode ++ (strData ++ [4, 0, 0, 0] ++ [1, 0, 2, 0]))) =
      headerResult (riffHead [60, 0, 0, 0] [] ++
        ((extFmtChunk fmtBase [0, 0]).encode ++ (strData ++ [4, 0, 0, 0] ++ [1, 0, 2, 0]))) :=
  (C6_extension_payload_ignored [60, 0, 0, 0] [] fmtBase [0, 0] [9, 9]
    (strData ++ [4, 0, 0, 0] ++ [1, 0, 2, 0]) rfl (by decide) rfl rfl (by decide)).1

/-- C7 (as stated) fails: on an accepted file whose first frame has the left-channel
sample `-32768`, the first call of `get_sample` returns `-32768 / 32767`, which is below
`-1`. -/
theorem C7_counterexample :
    headerResult minSampleFile = Res.ok (44, validGlobals) ∧
      outputs minSampleFile [0] = Res.ok [-32768 / 32767] ∧
      ¬ ((-1 : ℚ) ≤ -32768 / 32767 ∧ (-32768 / 32767 : ℚ) ≤ 1) := by
  have h : headerResult minSampleFile = Res.ok (44, validGlobals) := by decide
  refine ⟨h, ?_, by norm_num⟩
  rw [outputs_ok _ _ _ h]
  have e : (List.range [(0 : ℚ)].length).map (frameValue (minSampleFile.drop 44))
      = [frameValue (minSampleFile.drop 44) 0] := rfl
  rw [e, frameValue_of_raw _ 0 (-32768) (by decide) (by decide)]
  norm_num

/-- C7 (amended): for every file accepted by `readHeader`, every call of `get_sample`
returns a value in the closed interval from `-32768 / 32767` to `1`. -/
theorem C7_sample_range (d : List Byte) (p : Nat) (g : Globals) (ts : List ℚ)
    (hacc : headerResult d = Res.ok (p, g)) :
    ∃ vs : List ℚ, outputs d ts = Res.ok vs ∧ vs.length = ts.length ∧
      ∀ v ∈ vs, (-32768 : ℚ) / 32767 ≤ v ∧ v ≤ 1 := by
  refine ⟨_, outputs_ok d p g hacc ts, by simp, ?_⟩
  intro v hv
  rw [List.mem_map] at hv
  obtain ⟨k, _, hk⟩ := hv
  rw [← hk]
  exact frameValue_bounds _ k

theorem C7_sample_range_witness :
    ∃ vs : List ℚ, outputs minSampleFile [0, 0] = Res.ok vs ∧ vs.length = [(0 : ℚ), 0].length ∧
      ∀ v ∈ vs, (-32768 : ℚ) / 32767 ≤ v ∧ v ≤ 1 :=
  C7_sample_range minSampleFile 44 validGlobals [0, 0] (by decide)

/-- C8: `readHeader` terminates the process on every file whose first four bytes are
not "RIFF", or whose bytes 8 to 11 are not "WAVE", or that is shorter than 12 bytes;
so it returns only if both literals are present. -/
theorem C8_riff_wave_literals (d : List Byte) (g : Globals) :
    ((d.take 4 ≠ strRIFF ∨ (d.drop 8).take 4 ≠ strWAVE ∨ d.length < 12) →
        readHeader { data := d, pos := 0 } g = Res.fatal) ∧
      (∀ r, readHeader { data := d, pos := 0 } g = Res.ok r →
        d.take 4 = strRIFF ∧ (d.drop 8).take 4 = strWAVE ∧ 12 ≤ d.length) := by
  have e := readHeader_eq { data := d, pos := 0 } g
  have hr : ({ data := d, pos := 0 } : FILE).rest = d := rfl
  rw [hr] at e
  constructor
  · intro h
    rw [e, if_neg]
    rintro ⟨h1, h2, h3⟩
    rcases h with h | h | h
    · exact h h2
    · exact h h3
    · omega
  · intro r hok
    rw [e] at hok
    by_cases hh : HeaderOK d
    · exact ⟨hh.2.1, hh.2.2, hh.1⟩
    · rw [if_neg hh] at hok
      exact Res.noConfusion hok

theorem C8_riff_wave_literals_witness :
    readHeader
        { data := [82, 73, 70, 88, 36, 0, 0, 0, 87, 65, 86, 69] ++
            (Chunk.encode ⟨strFmt, fmtBase⟩ ++ (strData ++ [0, 0, 0, 0])),
          pos := 0 } Globals.zero = Res.fatal :=
  (C8_riff_wave_literals ([82, 73, 70, 88, 36, 0, 0, 0, 87, 65, 86, 69] ++
    (Chunk.encode ⟨strFmt, fmtBase⟩ ++ (strData ++ [0, 0, 0, 0]))) Globals.zero).1
    (Or.inl (by decide))

theorem frameValue_leftRaw (r : List Byte) (k : Nat) (hk : 4 * k + 4 ≤ r.length) :
    frameValue r k = (leftRaw r k : ℚ) / 32767 := by
  have h := frameValue_payload r [] k hk
  rw [List.append_nil] at h
  exact h

/-- C9: after a successful `readHeader` no call of `get_sample` fails.  With `R` the
number of bytes between the start of the data payload and the end of the file, after
`n` calls the cursor is `min (4 n) R` bytes into them; call `k` (counted from 0) returns
the normalised left sample of frame `k` when a full frame is left (`4 k + 4 ≤ R`), and
when less than a full frame is left it returns 0, as does every later call. -/
theorem C9_never_fails_and_sticky (d : List Byte) (p : Nat) (g : Globals) (ts : List ℚ)
    (hacc : headerResult d = Res.ok (p, g)) :
    ∃ (vs : List ℚ) (fin : Process),
      getSamples ts (Process.start d) = Res.ok (vs, fin) ∧ vs.length = ts.length ∧
      (ts ≠ [] → fin.wavfile =
        some { data := d, pos := p + min (4 * ts.length) (d.length - p) }) ∧
      ∀ k, k < ts.length →
        (4 * k + 4 ≤ d.length - p → vs[k]? = some ((leftRaw (d.drop p) k : ℚ) / 32767)) ∧
        (d.length - p < 4 * k + 4 → ∀ j, k ≤ j → j < ts.length → vs[j]? = some 0) := by
  have hval : ∀ n k, k < n →
      (4 * k + 4 ≤ d.length - p →
        ((List.range n).map (frameValue (d.drop p)))[k]? =
          some ((leftRaw (d.drop p) k : ℚ) / 32767)) ∧
      (d.length - p < 4 * k + 4 → ∀ j, k ≤ j → j < n →
        ((List.range n).map (frameValue (d.drop p)))[j]? = some 0) := by
    intro n k hk
    constructor
    · intro h4
      rw [List.getElem?_map, List.getElem?_range hk]
      simp only [Option.map_some']
      rw [frameValue_leftRaw _ _ (by rw [List.length_drop]; exact h4)]
    · intro h4 j hkj hj
      rw [List.getElem?_map, List.getElem?_range hj]
      simp only [Option.map_some']
      rw [frameValue_eq_zero _ _ (by rw [List.length_drop]; omega)]
  cases ts with
  | nil =>
    exact ⟨[], Process.start d, rfl, rfl, fun h => absurd rfl h, fun k hk => by simp at hk⟩
  | cons t ts =>
    obtain ⟨fin, h1, hs⟩ := getSamples_start d p g hacc t ts
    refine ⟨_, fin, h1, by simp, fun _ => hs.1, ?_⟩
    intro k hk
    exact hval _ k hk

theorem C9_never_fails_and_sticky_witness :
    ∃ (vs : List ℚ) (fin : Process),
      getSamples [0, 0, 0] (Process.start trailingChunkFile) = Res.ok (vs, fin) ∧
      vs.length = [(0 : ℚ), 0, 0].length ∧
      ([(0 : ℚ), 0, 0] ≠ [] → fin.wavfile =
        some { data := trailingChunkFile,
               pos := 44 + min (4 * [(0 : ℚ), 0, 0].length) (trailingChunkFile.length - 44) }) ∧
      ∀ k, k < [(0 : ℚ), 0, 0].length →
        (4 * k + 4 ≤ trailingChunkFile.length - 44 →
          vs[k]? = some ((leftRaw (trailingChunkFile.drop 44) k : ℚ) / 32767)) ∧
        (trailingChunkFile.length - 44 < 4 * k + 4 →
          ∀ j, k ≤ j → j < [(0 : ℚ), 0, 0].length → vs[j]? = some 0) :=
  C9_never_fails_and_sticky trailingChunkFile 44 validGlobals [0, 0, 0] (by decide)

theorem getSamples_time (ts : List ℚ) :
    ∀ (ts1 : List ℚ) (p : Process), ts.length = ts1.length →
      getSamples ts p = getSamples ts1 p := by
  induction ts with
  | nil =>
    intro ts1 p h
    cases ts1 with
    | nil => rfl
    | cons a l => simp at h
  | cons t ts ih =>
    intro ts1 p h
    cases ts1 with
    | nil => simp at h
    | cons t1 ts1 =>
      have hl : ts.length = ts1.length := by simpa using h
      have e : get_sample t p = get_sample t1 p := rfl
      simp only [getSamples, e]
      cases get_sample t1 p with
      | ok a =>
        obtain ⟨v, p1⟩ := a
        simp only [Res.ok_bind]
        rw [ih ts1 p1 hl]
      | fatal => rfl
      | outOfFuel => rfl

theorem mic_getSamples_time (B : Nat) (ts : List ℚ) :
    ∀ (ts1 : List ℚ) (s : SoundFromMic.State), ts.length = ts1.length →
      SoundFromMic.getSamples B ts s = SoundFromMic.getSamples B ts1 s := by
  induction ts with
  | nil =>
    intro ts1 s h
    cases ts1 with
    | nil => rfl
    | cons a l => simp at h
  | cons t ts ih =>
    intro ts1 s h
    cases ts1 with
    | nil => simp at h
    | cons t1 ts1 =>
      have hl : ts.length = ts1.length := by simpa using h
      have e : SoundFromMic.get_sample B t s = SoundFromMic.get_sample B t1 s := rfl
      simp only [SoundFromMic.getSamples, e]
      cases SoundFromMic.get_sample B t1 s with
      | some a =>
        obtain ⟨v, s1⟩ := a
        simp only
        rw [ih ts1 s1 hl]
      | none => rfl

/-- C10: the values returned by `get_sample` (and the state it leaves) depend only on the
file content and the number of calls: two sequences of time arguments of equal length
give the same result, from any process state; the same holds for the microphone
`get_sample`, given the same stream. -/
theorem C10_time_argument_ignored (ts ts1 : List ℚ) (h : ts.length = ts1.length) :
    (∀ p : Process, getSamples ts p = getSamples ts1 p) ∧
      (∀ d : List Byte, outputs d ts = outputs d ts1) ∧
      (∀ (B : Nat) (s : SoundFromMic.State),
        SoundFromMic.getSamples B ts s = SoundFromMic.getSamples B ts1 s) := by
  refine ⟨fun p => getSamples_time ts ts1 p h, ?_, fun B s => mic_getSamples_time B ts ts1 s h⟩
  intro d
  unfold outputs
  rw [getSamples_time ts ts1 _ h]

theorem C10_time_argument_ignored_witness :
    outputs trailingChunkFile [0, 1 / 44100, 2 / 44100] = outputs trailingChunkFile [5, 5, -3] :=
  (C10_time_argument_ignored [0, 1 / 44100, 2 / 44100] [5, 5, -3] rfl).2.1 trailingChunkFile

/-! ## Accepted files have the chunk layout -/

theorem leBytes_leValue (bs : List Byte) : leBytes bs.length (leValue bs) = bs := by
  induction bs with
  | nil => rfl
  | cons b bs ih =>
    have hb := b.isLt
    have h1 : (b.val + 256 * leValue bs) / 256 = leValue bs := by omega
    have h2 : (b.val + 256 * leValue bs) % 256 = b.val := by omega
    simp only [List.length_cons, leValue, leBytes, h1, ih]
    congr 1
    exact Fin.ext h2

/-- The bytes at the cursor, cut into the chunk that a declared length `L` delimits and
what follows it. -/
theorem split_chunk (r : List Byte) (L : Nat) (hL : L = leValue ((r.drop 4).take 4))
    (hlen : 8 + L ≤ r.length) :
    r = Chunk.encode ⟨r.take 4, (r.drop 8).take L⟩ ++ r.drop (8 + L) ∧
      (Chunk.mk (r.take 4) ((r.drop 8).take L)).WF ∧
      ((r.drop 8).take L).length = L := by
  have hpl : ((r.drop 8).take L).length = L := by
    rw [List.length_take, List.length_drop]; omega
  have h4 : ((r.drop 4).take 4).length = 4 := by
    rw [List.length_take, List.length_drop]; omega
  have hlt : L < 2 ^ 32 := by
    rw [hL]
    have := leValue_take_lt (r.drop 4) 4
    norm_num at this ⊢
    exact this
  refine ⟨?_, ⟨by simp; omega, by simpa [hpl] using hlt⟩, hpl⟩
  have e1 : leBytes 4 L = (r.drop 4).take 4 := by
    have := leBytes_leValue ((r.drop 4).take 4)
    rw [h4, ← hL] at this
    exact this
  simp only [Chunk.encode, hpl, e1]
  have a : r = r.take 4 ++ r.drop 4 := (List.take_append_drop 4 r).symm
  have b : r.drop 4 = (r.drop 4).take 4 ++ r.drop 8 := by
    have := (List.take_append_drop 4 (r.drop 4)).symm
    rw [List.drop_drop] at this
    exact this
  have c : r.drop 8 = (r.drop 8).take L ++ r.drop (8 + L) := by
    have := (List.take_append_drop L (r.drop 8)).symm
    rw [List.drop_drop] at this
    exact this
  conv_lhs => rw [a, b, c]
  simp only [List.append_assoc]

/-- A walk that ends at a "data" chunk has passed a run of complete chunks, each a
format chunk of the supported profile or a chunk with another tag. -/
theorem walk_layout (fuel : Nat) :
    ∀ (r : List Byte) (g : Globals) (n : Nat) (g1 : Globals),
      walk fuel r g = Res.ok (n, g1) →
      ∃ (cs : List Chunk) (len tail : List Byte),
        (∀ c ∈ cs, c.IsFmt ∨ c.IsUnknown) ∧ len.length = 4 ∧
        r = encodeAll cs ++ (strData ++ len ++ tail) ∧ n = (encodeAll cs).length + 8 ∧
        afterChunks cs g = some g1 ∧ DataOK g1 := by
  induction fuel with
  | zero => intro r g n g1 h; exact Res.noConfusion h
  | succ m ih =>
    intro r g n g1 h
    unfold walk at h
    by_cases h8 : 8 ≤ r.length
    swap
    · rw [if_neg h8] at h; exact Res.noConfusion h
    rw [if_pos h8] at h
    have step : ∀ g0 : Globals,
        bump (8 + leValue ((r.drop 4).take 4))
          (walk m (r.drop (8 + leValue ((r.drop 4).take 4))) g0) = Res.ok (n, g1) →
        ∃ (cs : List Chunk) (len tail : List Byte),
          (∀ c ∈ cs, c.IsFmt ∨ c.IsUnknown) ∧ len.length = 4 ∧
          r.drop (8 + leValue ((r.drop 4).take 4)) = encodeAll cs ++ (strData ++ len ++ tail) ∧
          n = 8 + leValue ((r.drop 4).take 4) + ((encodeAll cs).length + 8) ∧
          afterChunks cs g0 = some g1 ∧ DataOK g1 ∧
          8 + leValue ((r.drop 4).take 4) ≤ r.length := by
      intro g0 hb
      obtain ⟨k, hk, hn⟩ := bump_eq_ok _ _ _ _ hb
      obtain ⟨cs, len, tail, hcs, hlen, hr, hk2, ha, hd⟩ := ih _ _ _ _ hk
      refine ⟨cs, len, tail, hcs, hlen, hr, by rw [hn, hk2], ha, hd, ?_⟩
      by_contra hc
      have : r.drop (8 + leValue ((r.drop 4).take 4)) = [] :=
        List.drop_eq_nil_of_le (by omega)
      rw [this] at hr
      have hl := congrArg List.length hr
      simp [strData] at hl
      omega
    by_cases hf : r.take 4 = strFmt
    · rw [if_pos hf] at h
      by_cases hk : FmtOK (r.drop 8) (leValue ((r.drop 4).take 4))
      swap
      · rw [if_neg hk] at h; exact Res.noConfusion h
      rw [if_pos hk] at h
      obtain ⟨cs, len, tail, hcs, hlen, hr, hn, ha, hd, hle⟩ := step _ h
      obtain ⟨hsplit, hwf, hpl⟩ := split_chunk r _ rfl hle
      have hfmt : (Chunk.mk (r.take 4) ((r.drop 8).take (leValue ((r.drop 4).take 4)))).IsFmt := by
        refine ⟨hwf, hf, ?_⟩
        have e : r.drop 8 = (r.drop 8).take (leValue ((r.drop 4).take 4)) ++
            r.drop (8 + leValue ((r.drop 4).take 4)) := by
          have := (List.take_append_drop (leValue ((r.drop 4).take 4)) (r.drop 8)).symm
          rw [List.drop_drop] at this
          exact this
        rw [e] at hk
        have := (FmtOK_append ((r.drop 8).take (leValue ((r.drop 4).take 4)))
          (r.drop (8 + leValue ((r.drop 4).take 4)))).mp (by rw [hpl]; exact hk)
        exact this
      have hpl2 : (Chunk.mk (r.take 4)
          ((r.drop 8).take (leValue ((r.drop 4).take 4)))).payload.length
          = leValue ((r.drop 4).take 4) := hpl
      generalize Chunk.mk (r.take 4) ((r.drop 8).take (leValue ((r.drop 4).take 4))) = c0
        at hsplit hwf hfmt hpl2
      refine ⟨c0 :: cs, len, tail, ?_, hlen, ?_, ?_, ?_, hd⟩
      · intro c hc
        rcases List.mem_cons.mp hc with e | e
        · rw [e]; exact Or.inl hfmt
        · exact hcs c e
      · rw [encodeAll, List.append_assoc, ← hr]
        exact hsplit
      · rw [encodeAll, List.length_append, Chunk.encode_length _ hwf.1, hn, hpl2]
        omega
      · simp only [afterChunks, if_pos hfmt.2.1, if_pos hfmt.2.2]
        exact ha
    · rw [if_neg hf] at h
      by_cases hdt : r.take 4 = strData
      · rw [if_pos hdt] at h
        by_cases hk : DataOK g
        swap
        · rw [if_neg hk] at h; exact Res.noConfusion h
        rw [if_pos hk] at h
        simp only [Res.ok.injEq, Prod.mk.injEq] at h
        refine ⟨[], (r.drop 4).take 4, r.drop 8, by simp, ?_, ?_, by simp [encodeAll, h.1], ?_, ?_⟩
        · rw [List.length_take, List.length_drop]; omega
        · simp only [encodeAll, List.nil_append, ← hdt]
          have a : r = r.take 4 ++ r.drop 4 := (List.take_append_drop 4 r).symm
          have b : r.drop 4 = (r.drop 4).take 4 ++ r.drop 8 := by
            have := (List.take_append_drop 4 (r.drop 4)).symm
            rw [List.drop_drop] at this
            exact this
          conv_lhs => rw [a, b]
          simp only [List.append_assoc]
        · simp [afterChunks, h.2]
        · rw [← h.2]; exact hk
      · rw [if_neg hdt] at h
        obtain ⟨cs, len, tail, hcs, hlen, hr, hn, ha, hd, hle⟩ := step _ h
        obtain ⟨hsplit, hwf, hpl⟩ := split_chunk r _ rfl hle
        have hun : (Chunk.mk (r.take 4)
            ((r.drop 8).take (leValue ((r.drop 4).take 4)))).IsUnknown := ⟨hwf, hf, hdt⟩
        have hpl2 : (Chunk.mk (r.take 4)
            ((r.drop 8).take (leValue ((r.drop 4).take 4)))).payload.length
            = leValue ((r.drop 4).take 4) := hpl
        generalize Chunk.mk (r.take 4) ((r.drop 8).take (leValue ((r.drop 4).take 4))) = c0
          at hsplit hwf hun hpl2
        refine ⟨c0 :: cs, len, tail, ?_, hlen, ?_, ?_, ?_, hd⟩
        · intro c hc
          rcases List.mem_cons.mp hc with e | e
          · rw [e]; exact Or.inr hun
          · exact hcs c e
        · rw [encodeAll, List.append_assoc, ← hr]
          exact hsplit
        · rw [encodeAll, List.length_append, Chunk.encode_length _ hwf.1, hn, hpl2]
          omega
        · simp only [afterChunks, if_neg hun.2.1]
          exact ha

theorem headerResult_of_readHeader (d : List Byte) (f : FILE) (g : Globals)
    (h : readHeader { data := d, pos := 0 } Globals.zero = Res.ok (f, g)) :
    headerResult d = Res.ok (f.pos, g) ∧ f = { data := d, pos := f.pos } := by
  have h1 : headerResult d = Res.ok (f.pos, g) := by
    unfold headerResult init_file
    rw [h]
  have h2 := init_file_of_headerResult d f.pos g h1
  unfold init_file at h2
  rw [h] at h2
  simp only [Res.ok.injEq, Prod.mk.injEq] at h2
  exact ⟨h1, h2.1⟩

/-- The header result of a file whose "data" chunk follows a run of chunks none of which
is tagged "data". -/
theorem headerResult_data (size : List Byte) (hsize : size.length = 4) (cs : List Chunk)
    (hcs : ∀ c ∈ cs, c.WF ∧ c.tag ≠ strData) (len : List Byte) (hlen : len.length = 4)
    (tail : List Byte) :
    headerResult (riffHead size cs ++ (strData ++ len ++ tail)) =
      match afterChunks cs Globals.zero with
      | some g1 =>
        if DataOK g1 then Res.ok ((riffHead size cs).length + 8, g1) else Res.fatal
      | none => Res.fatal := by
  rw [headerResult_chunks size hsize cs hcs]
  unfold walkAfter
  cases afterChunks cs Globals.zero with
  | some g1 =>
    simp only
    rw [walkR_data len tail hlen]
    by_cases hd : DataOK g1
    · rw [if_pos hd, if_pos hd]; rfl
    · rw [if_neg hd, if_neg hd]; rfl
  | none => rfl

/-- Every accepted file is the RIFF preamble, a run of complete chunks (format chunks
of the supported profile, at least one, and chunks with other tags), and a "data" chunk
header at which the cursor stops. -/
theorem accepted_layout (d : List Byte) (p : Nat) (g : Globals)
    (h : headerResult d = Res.ok (p, g)) :
    ∃ (size : List Byte) (cs : List Chunk) (len tail : List Byte),
      size.length = 4 ∧ len.length = 4 ∧
      (∀ c ∈ cs, c.IsFmt ∨ c.IsUnknown) ∧ (∃ c ∈ cs, c.IsFmt) ∧
      d = riffHead size cs ++ (strData ++ len ++ tail) ∧
      p = (riffHead size cs).length + 8 ∧ g = validGlobals ∧
      afterChunks cs Globals.zero = some g := by
  have hg := headerResult_globals d p g h
  rw [headerResult_eq] at h
  by_cases hh : HeaderOK d
  swap
  · rw [if_neg hh] at h; exact Res.noConfusion h
  rw [if_pos hh] at h
  obtain ⟨k, hk, hp⟩ := bump_eq_ok _ _ _ _ h
  unfold walkR at hk
  obtain ⟨cs, len, tail, hcs, hlen, hr, hk2, ha, hd⟩ := walk_layout _ _ _ _ _ hk
  obtain ⟨h12, hR, hW⟩ := hh
  have hs4 : ((d.drop 4).take 4).length = 4 := by
    rw [List.length_take, List.length_drop]; omega
  have hd12 : d = strRIFF ++ (d.drop 4).take 4 ++ strWAVE ++ d.drop 12 := by
    have a : d = d.take 4 ++ d.drop 4 := (List.take_append_drop 4 d).symm
    have b : d.drop 4 = (d.drop 4).take 4 ++ d.drop 8 := by
      have := (List.take_append_drop 4 (d.drop 4)).symm
      rw [List.drop_drop] at this
      exact this
    have c : d.drop 8 = (d.drop 8).take 4 ++ d.drop 12 := by
      have := (List.take_append_drop 4 (d.drop 8)).symm
      rw [List.drop_drop] at this
      exact this
    conv_lhs => rw [a, b, c, hR, hW]
    simp only [List.append_assoc]
  have hfmt : ∃ c ∈ cs, c.IsFmt := by
    by_contra hc
    rw [afterChunks_valid cs _ hcs, if_neg hc] at ha
    simp only [Option.some.injEq] at ha
    rw [← ha] at hd
    exact absurd hd (by decide)
  refine ⟨(d.drop 4).take 4, cs, len, tail, hs4, hlen, hcs, hfmt, ?_, ?_, hg, ?_⟩
  · conv_lhs => rw [hd12, hr]
    simp only [riffHead, List.append_assoc]
  · rw [riffHead_length _ _ hs4, hp, hk2]
    omega
  · exact ha

theorem wf_of_valid (cs : List Chunk) (hcs : ∀ c ∈ cs, c.IsFmt ∨ c.IsUnknown) :
    ∀ c ∈ cs, c.WF ∧ c.tag ≠ strData := by
  intro c hc
  rcases hcs c hc with h | h
  · exact ⟨h.1, by rw [h.2.1]; decide⟩
  · exact ⟨h.1, h.2.2⟩

/-- C11: whenever `readHeader` succeeds, the file is the RIFF preamble, a run of chunks
none of which is tagged "data", and a "data" chunk header; the cursor is left at the
offset of that header's tag plus 8, so that the bytes from the cursor on are the data
payload and what follows it; and no byte at or after the cursor has been used: with
any other bytes from that position on, `readHeader` gives the same result. -/
theorem C11_cursor_at_data_payload (d : List Byte) (f : FILE) (g : Globals)
    (hacc : readHeader { data := d, pos := 0 } Globals.zero = Res.ok (f, g)) :
    ∃ (size : List Byte) (cs : List Chunk) (len tail : List Byte),
      size.length = 4 ∧ len.length = 4 ∧ (∀ c ∈ cs, c.WF ∧ c.tag ≠ strData) ∧
      d = riffHead size cs ++ (strData ++ len ++ tail) ∧
      f = { data := d, pos := (riffHead size cs).length + 8 } ∧
      f.rest = tail ∧
      ∀ tail1 : List Byte,
        readHeader { data := riffHead size cs ++ (strData ++ len ++ tail1), pos := 0 }
            Globals.zero =
          Res.ok ({ data := riffHead size cs ++ (strData ++ len ++ tail1),
                    pos := (riffHead size cs).length + 8 }, g) := by
  obtain ⟨h1, h2⟩ := headerResult_of_readHeader d f g hacc
  obtain ⟨size, cs, len, tail, hsize, hlen, hcs, _, hd, hp, hg, ha⟩ :=
    accepted_layout d f.pos g h1
  have hwf := wf_of_valid cs hcs
  have hf : f = { data := d, pos := (riffHead size cs).length + 8 } := by
    rw [h2, hp]
  refine ⟨size, cs, len, tail, hsize, hlen, hwf, hd, hf, ?_, ?_⟩
  · rw [hf]
    simp only [FILE.rest]
    rw [hd, ← List.drop_drop, List.drop_left]
    have : (strData ++ len).length = 8 := by simp [strData, hlen]
    rw [← this, List.drop_left]
  · intro tail1
    have h3 := headerResult_data size hsize cs hwf len hlen tail1
    rw [ha] at h3
    simp only at h3
    rw [if_pos (by rw [hg]; decide)] at h3
    exact init_file_of_headerResult _ _ _ h3

theorem C11_cursor_at_data_payload_witness :
    ∃ (size : List Byte) (cs : List Chunk) (len tail : List Byte),
      size.length = 4 ∧ len.length = 4 ∧ (∀ c ∈ cs, c.WF ∧ c.tag ≠ strData) ∧
      trailingChunkFile = riffHead size cs ++ (strData ++ len ++ tail) ∧
      ({ data := trailingChunkFile, pos := 44 } : FILE) =
        { data := trailingChunkFile, pos := (riffHead size cs).length + 8 } ∧
      ({ data := trailingChunkFile, pos := 44 } : FILE).rest = tail ∧
      ∀ tail1 : List Byte,
        readHeader { data := riffHead size cs ++ (strData ++ len ++ tail1), pos := 0 }
            Globals.zero =
          Res.ok ({ data := riffHead size cs ++ (strData ++ len ++ tail1),
                    pos := (riffHead size cs).length + 8 }, validGlobals) :=
  C11_cursor_at_data_payload trailingChunkFile { data := trailingChunkFile, pos := 44 }
    validGlobals (by decide)

/-- C12: whenever `readHeader` succeeds, the format state is `numChannels = 2`,
`sampleRate = 44100`, `bitsPerSample = 16`, `bytesPerSample = 2`; at least one "fmt "
chunk was processed, and every one processed (so also the last) declared
`byteRate = 176400 = sampleRate * numChannels * bytesPerSample` and
`blockAlign = 4 = numChannels * bytesPerSample`; the frame size
`bytesPerSample * numChannels` that `get_sample` passes to `fread` is 4, and it stays 4
after any number of calls. -/
theorem C12_format_state (d : List Byte) (f : FILE) (g : Globals)
    (hacc : readHeader { data := d, pos := 0 } Globals.zero = Res.ok (f, g)) :
    (g.numChannels = 2 ∧ g.sampleRate = 44100 ∧ g.bitsPerSample = 16 ∧ g.bytesPerSample = 2) ∧
      (∃ (size : List Byte) (cs : List Chunk) (rest : List Byte),
        d = riffHead size cs ++ (strData ++ rest) ∧ (∀ c ∈ cs, c.WF ∧ c.tag ≠ strData) ∧
        (∃ c ∈ cs, c.tag = strFmt) ∧
        ∀ c ∈ cs, c.tag = strFmt →
          ((c.byteRate : Int) = 176400 ∧
            (c.byteRate : Int) = g.sampleRate * g.numChannels * g.bytesPerSample) ∧
          ((c.blockAlign : Int) = 4 ∧
            (c.blockAlign : Int) = g.numChannels * g.bytesPerSample)) ∧
      toSizeT (g.bytesPerSample * g.numChannels) = 4 ∧
      ∀ (t : ℚ) (ts : List ℚ), ∃ (vs : List ℚ) (fin : Process),
        getSamples (t :: ts) (Process.start d) = Res.ok (vs, fin) ∧ fin.g = g := by
  obtain ⟨h1, _⟩ := headerResult_of_readHeader d f g hacc
  obtain ⟨size, cs, len, tail, hsize, hlen, hcs, hfmt, hd, hp, hg, ha⟩ :=
    accepted_layout d f.pos g h1
  subst hg
  refine ⟨⟨rfl, rfl, rfl, rfl⟩, ⟨size, cs, len ++ tail, ?_, wf_of_valid cs hcs, ?_, ?_⟩,
    by decide, ?_⟩
  · rw [hd]; simp only [List.append_assoc]
  · obtain ⟨c, hc, hcf⟩ := hfmt
    exact ⟨c, hc, hcf.2.1⟩
  · intro c hc htag
    rcases hcs c hc with h | h
    · obtain ⟨_, _, _, _, _, _, _, h6, h7, _, _⟩ := h
      unfold Chunk.byteRate Chunk.blockAlign
      rw [h6, h7]
      exact ⟨⟨rfl, by decide⟩, ⟨rfl, by decide⟩⟩
    · exact absurd htag h.2.1
  · intro t ts
    obtain ⟨fin, hfin, hs⟩ := getSamples_start d f.pos validGlobals h1 t ts
    exact ⟨_, fin, hfin, hs.2⟩

theorem C12_format_state_witness :
    toSizeT (validGlobals.bytesPerSample * validGlobals.numChannels) = 4 :=
  (C12_format_state trailingChunkFile { data := trailingChunkFile, pos := 44 }
    validGlobals (by decide)).2.2.1

/-- C13: for a "fmt " chunk whose sixteen base bytes carry the supported profile and
whose declared length `L` does not exceed the bytes present, `readFmtChunk` accepts
exactly when `L = 16`, or `L ≥ 18` and the `uint16` extension-size field after the base
bytes equals `L - 18`; so every `L < 16`, `L = 17` and every `L > 18 + 65535` is
rejected. -/
theorem C13_fmt_length_rule (f : FILE) (L : Nat) (g : Globals)
    (hbase : 16 ≤ f.rest.length ∧ leValue (f.rest.take 2) = 1 ∧
      leValue ((f.rest.drop 2).take 2) = 2 ∧ leValue ((f.rest.drop 4).take 4) = 44100 ∧
      leValue ((f.rest.drop 8).take 4) = 176400 ∧ leValue ((f.rest.drop 12).take 2) = 4 ∧
      leValue ((f.rest.drop 14).take 2) = 16)
    (hpresent : L ≤ f.rest.length) :
    readFmtChunk f L g =
        (if L = 16 ∨ (18 ≤ L ∧ leValue ((f.rest.drop 16).take 2) = L - 18) then
          Res.ok (f.advance L, validGlobals)
        else Res.fatal) ∧
      ((L < 16 ∨ L = 17 ∨ 18 + 65535 < L) → readFmtChunk f L g = Res.fatal) := by
  obtain ⟨h2, h3, h4, h5, h6, h7, h8⟩ := hbase
  have hext := leValue_take_lt (f.rest.drop 16) 2
  have key : FmtOK f.rest L ↔
      (L = 16 ∨ (18 ≤ L ∧ leValue ((f.rest.drop 16).take 2) = L - 18)) := by
    constructor
    · rintro ⟨a1, _, _, _, _, _, _, _, a9⟩
      rcases a9 with a9 | ⟨_, a10⟩
      · exact Or.inl a9
      · exact Or.inr ⟨by omega, by omega⟩
    · intro h
      refine ⟨by omega, h2, h3, h4, h5, h6, h7, h8, ?_⟩
      rcases h with h | ⟨ha, hb⟩
      · exact Or.inl h
      · exact Or.inr ⟨by omega, by omega⟩
  have e : readFmtChunk f L g =
      (if L = 16 ∨ (18 ≤ L ∧ leValue ((f.rest.drop 16).take 2) = L - 18) then
        Res.ok (f.advance L, validGlobals)
      else Res.fatal) := by
    rw [readFmtChunk_eq]
    by_cases hk : FmtOK f.rest L
    · rw [if_pos hk, if_pos (key.mp hk)]
    · rw [if_neg hk, if_neg (fun h => hk (key.mpr h))]
  refine ⟨e, ?_⟩
  intro hL
  rw [e, if_neg]
  norm_num at hext
  omega

theorem C13_fmt_length_rule_witness :
    readFmtChunk { data := fmtBase ++ [3, 0, 7, 7, 7], pos := 0 } 17 Globals.zero = Res.fatal :=
  (C13_fmt_length_rule { data := fmtBase ++ [3, 0, 7, 7, 7], pos := 0 } 17 Globals.zero
    (by decide) (by decide)).2 (Or.inr (Or.inl rfl))

/-- C14: whenever `readFmtChunk` succeeds on a chunk of declared length `chunkLen`, it
leaves the cursor exactly `chunkLen` bytes further (16 when `chunkLen = 16`, otherwise
`16 + 2 + extendedSize = chunkLen`), and the loop of `readHeader`, having read the eight
header bytes, resumes `8 + chunkLen` bytes after the chunk's tag. -/
theorem C14_fmt_consumes_declared_length (f : FILE) (chunkLen : Nat) (g : Globals)
    (f1 : FILE) (g1 : Globals) (h : readFmtChunk f chunkLen g = Res.ok (f1, g1)) :
    f1.data = f.data ∧ f1.pos = f.pos + chunkLen ∧
      (chunkLen = 16 ∨ chunkLen = 16 + 2 + leValue ((f.rest.drop 16).take 2)) ∧
      ∀ (w : FILE) (fuel : Nat) (g0 : Globals),
        8 ≤ w.rest.length → w.rest.take 4 = strFmt →
        leValue ((w.rest.drop 4).take 4) = chunkLen → w.advance 8 = f →
        readHeaderLoop (fuel + 1) w g0 = readHeaderLoop fuel (w.advance (8 + chunkLen)) g1 := by
  rw [readFmtChunk_eq] at h
  by_cases hk : FmtOK f.rest chunkLen
  swap
  · rw [if_neg hk] at h; exact Res.noConfusion h
  rw [if_pos hk] at h
  simp only [Res.ok.injEq, Prod.mk.injEq] at h
  obtain ⟨hf, hg⟩ := h
  refine ⟨by rw [← hf]; rfl, by rw [← hf]; rfl, ?_, ?_⟩
  · obtain ⟨_, _, _, _, _, _, _, _, h9⟩ := hk
    rcases h9 with h9 | ⟨_, h10⟩
    · exact Or.inl h9
    · exact Or.inr (by omega)
  · intro w fuel g0 h8 htag hlen hw
    rw [readHeaderLoop_eq_walk, readHeaderLoop_eq_walk]
    have hk2 : FmtOK (w.rest.drop 8) (leValue ((w.rest.drop 4).take 4)) := by
      rw [hlen, ← FILE.rest_advance, hw]
      exact hk
    simp only [walk]
    rw [if_pos h8, if_pos htag, if_pos hk2, hlen, ← place_advance_bump, FILE.rest_advance, hg]

theorem C14_fmt_consumes_declared_length_witness :
    ({ data := fmtBase ++ [3, 0, 7, 7, 7], pos := 21 } : FILE).pos = 0 + 21 :=
  (C14_fmt_consumes_declared_length { data := fmtBase ++ [3, 0, 7, 7, 7], pos := 0 } 21
    Globals.zero { data := fmtBase ++ [3, 0, 7, 7, 7], pos := 21 } validGlobals
    (by decide)).2.1

theorem walkR_nil (g : Globals) : walkR [] g = Res.fatal := by
  rw [walkR_step, if_neg (by simp)]

/-- C15: when the chunk walker, having passed chunks none of which is tagged "data",
meets a chunk whose tag is neither "fmt " nor "data" and whose declared length exceeds
the number of bytes left in the file, `readHeader` terminates the process and no call of
`get_sample` returns a value. -/
theorem C15_short_unknown_chunk_rejected (size : List Byte) (cs : List Chunk)
    (tag len body : List Byte)
    (hsize : size.length = 4) (hcs : ∀ c ∈ cs, c.WF ∧ c.tag ≠ strData)
    (htag : tag.length = 4) (hfmt : tag ≠ strFmt) (hdata : tag ≠ strData)
    (hlen : len.length = 4) (hshort : body.length < leValue len) :
    readHeader { data := riffHead size cs ++ (tag ++ len ++ body), pos := 0 } Globals.zero
        = Res.fatal ∧
      ∀ (t : ℚ) (ts : List ℚ),
        outputs (riffHead size cs ++ (tag ++ len ++ body)) (t :: ts) = Res.fatal := by
  have hw : ∀ g1 : Globals, walkR (tag ++ len ++ body) g1 = Res.fatal := by
    intro g1
    rw [walkR_step]
    have e1 : (tag ++ len ++ body).take 4 = tag := by
      rw [List.append_assoc, List.take_append_of_le_length (by omega), ← htag, List.take_length]
    have e2 : ((tag ++ len ++ body).drop 4).take 4 = len := by
      rw [List.append_assoc, ← htag, List.drop_left, htag,
        List.take_append_of_le_length (by omega)]
      conv_lhs => rw [← hlen, List.take_length]
    have e3 : (tag ++ len ++ body).drop (8 + leValue len) = [] :=
      List.drop_eq_nil_of_le (by simp [htag, hlen]; omega)
    rw [e1, e2, e3, if_pos (by simp [htag, hlen]; omega), if_neg hfmt, if_neg hdata, walkR_nil]
    rfl
  have h : headerResult (riffHead size cs ++ (tag ++ len ++ body)) = Res.fatal := by
    rw [headerResult_chunks size hsize cs hcs, bump_fatal_iff]
    unfold walkAfter
    cases afterChunks cs Globals.zero with
    | some g1 => exact hw g1
    | none => rfl
  exact ⟨readHeader_fatal_of_headerResult _ h, fun t ts => outputs_fatal _ h t ts⟩

theorem C15_short_unknown_chunk_rejected_witness :
    readHeader
        { data := riffHead [30, 0, 0, 0] [⟨strFmt, fmtBase⟩] ++
            ([76, 73, 83, 84] ++ [200, 0, 0, 0] ++ [100, 97, 116, 97, 0, 0, 0, 0, 1, 2]),
          pos := 0 } Globals.zero = Res.fatal :=
  (C15_short_unknown_chunk_rejected [30, 0, 0, 0] [⟨strFmt, fmtBase⟩] [76, 73, 83, 84]
    [200, 0, 0, 0] [100, 97, 116, 97, 0, 0, 0, 0, 1, 2] rfl (by decide) rfl (by decide)
    (by decide) rfl (by decide)).1

/-- C16: two files that differ only in the four-byte length field of the "data" chunk
at which the walker stops give the same result of `readHeader` (both are accepted with
the same cursor and format state, or both are rejected) and the same value at every
call of `get_sample`. -/
theorem C16_data_length_informational (size : List Byte) (cs : List Chunk)
    (len len1 tail : List Byte)
    (hsize : size.length = 4) (hcs : ∀ c ∈ cs, c.WF ∧ c.tag ≠ strData)
    (hlen : len.length = 4) (hlen1 : len1.length = 4) :
    headerResult (riffHead size cs ++ (strData ++ len1 ++ tail)) =
        headerResult (riffHead size cs ++ (strData ++ len ++ tail)) ∧
      ∀ ts : List ℚ,
        outputs (riffHead size cs ++ (strData ++ len1 ++ tail)) ts =
          outputs (riffHead size cs ++ (strData ++ len ++ tail)) ts := by
  have key : ∀ l : List Byte, l.length = 4 →
      headerResult ((riffHead size cs ++ (strData ++ l)) ++ tail) =
        bump (riffHead size cs ++ (strData ++ l)).length
          (match afterChunks cs Globals.zero with
            | some g1 => if DataOK g1 then Res.ok (0, g1) else Res.fatal
            | none => Res.fatal) := by
    intro l hl
    have e : (riffHead size cs ++ (strData ++ l)) ++ tail
        = riffHead size cs ++ (strData ++ l ++ tail) := by
      simp only [List.append_assoc]
    rw [e, headerResult_data size hsize cs hcs l hl tail]
    have e2 : (riffHead size cs ++ (strData ++ l)).length = (riffHead size cs).length + 8 := by
      simp [strData, hl]
    rw [e2]
    cases afterChunks cs Globals.zero with
    | some g1 =>
      simp only
      by_cases hd : DataOK g1
      · rw [if_pos hd, if_pos hd]; rfl
      · rw [if_neg hd, if_neg hd]; rfl
    | none => rfl
  constructor
  · rw [headerResult_data size hsize cs hcs len hlen tail,
      headerResult_data size hsize cs hcs len1 hlen1 tail]
  · intro ts
    have e : ∀ l : List Byte, riffHead size cs ++ (strData ++ l ++ tail)
        = (riffHead size cs ++ (strData ++ l)) ++ tail := by
      intro l
      simp only [List.append_assoc]
    rw [e len, e len1, outputs_layout _ _ _ (key len hlen),
      outputs_layout _ _ _ (key len1 hlen1)]

theorem C16_data_length_informational_witness :
    headerResult (riffHead [40, 0, 0, 0] [⟨strFmt, fmtBase⟩] ++
        (strData ++ [255, 255, 255, 255] ++ [1, 0, 2, 0])) =
      headerResult (riffHead [40, 0, 0, 0] [⟨strFmt, fmtBase⟩] ++
        (strData ++ [4, 0, 0, 0] ++ [1, 0, 2, 0])) :=
  (C16_data_length_informational [40, 0, 0, 0] [⟨strFmt, fmtBase⟩] [4, 0, 0, 0]
    [255, 255, 255, 255] [1, 0, 2, 0] rfl (by decide) rfl rfl).1

/-- The sample values of any file, from the bytes after the RIFF preamble. -/
theorem outputs_eq (d : List Byte) (ts : List ℚ) :
    outputs d ts =
      if HeaderOK d then outputsOf (walkR (d.drop 12) Globals.zero) (d.drop 12) ts
      else outputsOf Res.fatal [] ts := by
  by_cases hh : HeaderOK d
  · rw [if_pos hh]
    have h := headerResult_eq d
    rw [if_pos hh] at h
    have hl : (d.take 12).length = 12 := by
      rw [List.length_take]; have := hh.1; omega
    have h2 := outputs_layout (d.take 12) (d.drop 12) (walkR (d.drop 12) Globals.zero)
      (by rw [List.take_append_drop, hl]; exact h) ts
    rw [List.take_append_drop] at h2
    exact h2
  · rw [if_neg hh]
    have h := headerResult_eq d
    rw [if_neg hh] at h
    cases ts with
    | nil => rfl
    | cons t ts =>
      rw [outputs_fatal d h t ts]
      simp [outputsOf]

/-- C17: two files that differ only in bytes 4 to 7 (the RIFF overall-size field) give
the same result of `readHeader` (both are accepted with the same cursor and format
state, or both are rejected) and the same `get_sample` values. -/
theorem C17_riff_size_unused (d d1 : List Byte)
    (hlen : d1.length = d.length) (hhead : d1.take 4 = d.take 4)
    (htail : d1.drop 8 = d.drop 8) :
    headerResult d1 = headerResult d ∧ ∀ ts : List ℚ, outputs d1 ts = outputs d ts := by
  have h12 : d1.drop 12 = d.drop 12 := by
    have a : d1.drop 12 = (d1.drop 8).drop 4 := by rw [List.drop_drop]
    have b : d.drop 12 = (d.drop 8).drop 4 := by rw [List.drop_drop]
    rw [a, b, htail]
  have hh : HeaderOK d1 ↔ HeaderOK d := by
    unfold HeaderOK
    rw [hlen, hhead, htail]
  constructor
  · rw [headerResult_eq, headerResult_eq, h12]
    by_cases h : HeaderOK d
    · rw [if_pos h, if_pos (hh.mpr h)]
    · rw [if_neg h, if_neg (fun h1 => h (hh.mp h1))]
  · intro ts
    rw [outputs_eq, outputs_eq, h12]
    by_cases h : HeaderOK d
    · rw [if_pos h, if_pos (hh.mpr h)]
    · rw [if_neg h, if_neg (fun h1 => h (hh.mp h1))]

theorem C17_riff_size_unused_witness :
    headerResult (strRIFF ++ [255, 255, 255, 255] ++
        (strWAVE ++ (Chunk.encode ⟨strFmt, fmtBase⟩ ++ (strData ++ [0, 0, 0, 0])))) =
      headerResult (strRIFF ++ [36, 0, 0, 0] ++
        (strWAVE ++ (Chunk.encode ⟨strFmt, fmtBase⟩ ++ (strData ++ [0, 0, 0, 0])))) :=
  (C17_riff_size_unused
    (strRIFF ++ [36, 0, 0, 0] ++
      (strWAVE ++ (Chunk.encode ⟨strFmt, fmtBase⟩ ++ (strData ++ [0, 0, 0, 0]))))
    (strRIFF ++ [255, 255, 255, 255] ++
      (strWAVE ++ (Chunk.encode ⟨strFmt, fmtBase⟩ ++ (strData ++ [0, 0, 0, 0]))))
    (by decide) (by decide) (by decide)).1

theorem place_ne_outOfFuel (f : FILE) (x : Res (Nat × Globals)) (h : x ≠ Res.outOfFuel) :
    place f x ≠ Res.outOfFuel := by
  cases x with
  | ok a => intro e; exact Res.noConfusion e
  | fatal => intro e; exact Res.noConfusion e
  | outOfFuel => exact absurd rfl h

/-- One iteration of the loop of `readHeader`: it fails, or stops at a "data" chunk
with the cursor 8 bytes further, or goes on with the cursor at least 8 bytes further. -/
theorem readHeaderLoop_iteration (f : FILE) (g : Globals) :
    (∀ fuel, readHeaderLoop (fuel + 1) f g = Res.fatal) ∨
      (f.rest.take 4 = strData ∧
        ∀ fuel, readHeaderLoop (fuel + 1) f g = Res.ok (f.advance 8, g)) ∨
      (∃ (f1 : FILE) (g1 : Globals), f1.data = f.data ∧ f.pos + 8 ≤ f1.pos ∧
        ∀ fuel, readHeaderLoop (fuel + 1) f g = readHeaderLoop fuel f1 g1) := by
  have go : ∀ g1 : Globals, ∀ fuel,
      place f (bump (8 + leValue ((f.rest.drop 4).take 4))
        (walk fuel (f.rest.drop (8 + leValue ((f.rest.drop 4).take 4))) g1)) =
      readHeaderLoop fuel (f.advance (8 + leValue ((f.rest.drop 4).take 4))) g1 := by
    intro g1 fuel
    rw [readHeaderLoop_eq_walk, ← place_advance_bump, FILE.rest_advance]
  by_cases h8 : 8 ≤ f.rest.length
  swap
  · left
    intro fuel
    rw [readHeaderLoop_eq_walk]
    simp only [walk]
    rw [if_neg h8]
    rfl
  by_cases hf : f.rest.take 4 = strFmt
  · by_cases hk : FmtOK (f.rest.drop 8) (leValue ((f.rest.drop 4).take 4))
    · right; right
      refine ⟨f.advance (8 + leValue ((f.rest.drop 4).take 4)), validGlobals, rfl, ?_, ?_⟩
      · simp only [FILE.advance_pos]; omega
      · intro fuel
        rw [readHeaderLoop_eq_walk]
        simp only [walk]
        rw [if_pos h8, if_pos hf, if_pos hk]
        exact go _ fuel
    · left
      intro fuel
      rw [readHeaderLoop_eq_walk]
      simp only [walk]
      rw [if_pos h8, if_pos hf, if_neg hk]
      rfl
  · by_cases hd : f.rest.take 4 = strData
    · by_cases hk : DataOK g
      · right; left
        refine ⟨hd, ?_⟩
        intro fuel
        rw [readHeaderLoop_eq_walk]
        simp only [walk]
        rw [if_pos h8, if_neg hf, if_pos hd, if_pos hk]
        rfl
      · left
        intro fuel
        rw [readHeaderLoop_eq_walk]
        simp only [walk]
        rw [if_pos h8, if_neg hf, if_pos hd, if_neg hk]
        rfl
    · right; right
      refine ⟨f.advance (8 + leValue ((f.rest.drop 4).take 4)), g, rfl, ?_, ?_⟩
      · simp only [FILE.advance_pos]; omega
      · intro fuel
        rw [readHeaderLoop_eq_walk]
        simp only [walk]
        rw [if_pos h8, if_neg hf, if_neg hd]
        exact go _ fuel

/-- C18: the chunk walker terminates.  Each iteration of the loop of `readHeader`
fails, or stops at a "data" chunk, or goes on with the cursor at least 8 bytes further;
skipping a chunk of any `uint32` length moves the cursor forward by that length; the
loop run with `length / 8 + 1` iterations or more never uses its budget up and gives
the same result whatever the budget; and `readHeader` returns or fails. -/
theorem C18_walker_terminates (f : FILE) (g : Globals) :
    ((∀ fuel, readHeaderLoop (fuel + 1) f g = Res.fatal) ∨
      (f.rest.take 4 = strData ∧
        ∀ fuel, readHeaderLoop (fuel + 1) f g = Res.ok (f.advance 8, g)) ∨
      (∃ (f1 : FILE) (g1 : Globals), f1.data = f.data ∧ f.pos + 8 ≤ f1.pos ∧
        ∀ fuel, readHeaderLoop (fuel + 1) f g = readHeaderLoop fuel f1 g1)) ∧
      (∀ chunkLen : Nat, chunkLen < 2 ^ 32 →
        fseek f (chunkLen : Int) = (0, { data := f.data, pos := f.pos + chunkLen })) ∧
      (∀ fuel, f.data.length / 8 + 1 ≤ fuel →
        readHeaderLoop fuel f g ≠ Res.outOfFuel ∧
        readHeaderLoop fuel f g = readHeaderLoop (f.data.length / 8 + 1) f g) ∧
      readHeader f g ≠ Res.outOfFuel := by
  have hok : readHeaderLoop (f.data.length / 8 + 1) f g ≠ Res.outOfFuel :=
    readHeaderLoop_fuel_ok _ f g
      (Nat.lt_succ_of_le (Nat.div_le_div_right (Nat.sub_le _ _)))
  refine ⟨readHeaderLoop_iteration f g, fun chunkLen _ => fseek_nat f chunkLen, ?_, ?_⟩
  · intro fuel hfuel
    have e : fuel = (f.data.length / 8 + 1) + (fuel - (f.data.length / 8 + 1)) := by omega
    have hm := readHeaderLoop_fuel_mono _ f g hok (fuel - (f.data.length / 8 + 1))
    rw [← e] at hm
    exact ⟨by rw [hm]; exact hok, hm⟩
  · rw [readHeader_eq]
    split
    · exact place_ne_outOfFuel _ _ (walkR_ne_outOfFuel _ _)
    · exact fun e => Res.noConfusion e

theorem C18_walker_terminates_witness :
    readHeaderLoop 100 { data := trailingChunkFile, pos := 12 } Globals.zero =
      readHeaderLoop (trailingChunkFile.length / 8 + 1)
        { data := trailingChunkFile, pos := 12 } Globals.zero :=
  ((C18_walker_terminates { data := trailingChunkFile, pos := 12 } Globals.zero).2.2.1 100
    (by decide)).2

end SoundFromFile

namespace SoundFromMic

/-! ## The microphone reader -/

theorem block_length (B : Nat) (frames : Nat → ℚ) (j : Nat) : (block B frames j).length = B := by
  simp [block]

theorem block_getElem? (B : Nat) (frames : Nat → ℚ) (j i : Nat) (hi : i < B) :
    (block B frames j)[i]? = some (frames (j * B + i)) := by
  unfold block
  rw [List.getElem?_map, List.getElem?_range hi]
  rfl

theorem read_block (B : Nat) (frames : Nat → ℚ) (j : Nat) (st : PaStream)
    (hf : st.frames = frames) (hp : st.position = j * B) :
    Pa_ReadStream st B = (block B frames j, { frames := frames, position := (j + 1) * B }) := by
  unfold Pa_ReadStream block
  rw [hf, hp, Nat.succ_mul]

/-- One call of `get_sample` after `n` earlier calls returns frame `n` of the stream. -/
theorem get_sample_step (B : Nat) (hB : 0 < B) (frames : Nat → ℚ) (n : Nat) (t : ℚ)
    (s : State) (h : After B frames n s) :
    ∃ s1 : State, get_sample B t s = some (frames n, s1) ∧ After B frames (n + 1) s1 := by
  obtain ⟨hf, hbuf, h⟩ := h
  rcases h with ⟨hn, hnext, hpos⟩ | ⟨q, r, hr, hn, hnext, hpos, hb⟩
  · subst hn
    have hrd := read_block B frames 0 s.stream hf (by rw [hpos, Nat.zero_mul])
    unfold get_sample
    rw [if_pos (by omega), hrd]
    simp only
    rw [block_getElem? B frames 0 0 hB]
    have e : 0 * B + 0 = 0 := by omega
    rw [e]
    exact ⟨_, rfl, rfl, block_length B frames 0, Or.inr ⟨0, 0, hB, by omega, rfl, rfl, rfl⟩⟩
  · by_cases hlast : r + 1 = B
    · have hrd := read_block B frames (q + 1) s.stream hf hpos
      unfold get_sample
      rw [if_pos (by omega), hrd]
      simp only
      rw [block_getElem? B frames (q + 1) 0 hB]
      have e : (q + 1) * B + 0 = n := by
        rw [hn, Nat.succ_mul]; omega
      rw [e]
      exact ⟨_, rfl, rfl, block_length B frames (q + 1),
        Or.inr ⟨q + 1, 0, hB, by omega, rfl, rfl, rfl⟩⟩
    · have hlt : r + 1 < B := by omega
      unfold get_sample
      rw [if_neg (by omega)]
      simp only
      rw [hb, hnext, block_getElem? B frames q (r + 1) hlt]
      have e : q * B + (r + 1) = n := by rw [hn]; omega
      rw [e]
      exact ⟨_, rfl, hf, by simp only [block_length],
        Or.inr ⟨q, r + 1, hlt, by omega, rfl, hpos, rfl⟩⟩

theorem run_from (B : Nat) (hB : 0 < B) (frames : Nat → ℚ) (ts : List ℚ) :
    ∀ (n : Nat) (s : State), After B frames n s →
      ∃ fin : State,
        run B ts s = some ((List.range ts.length).map (fun k => frames (n + k)), fin) ∧
        After B frames (n + ts.length) fin := by
  induction ts with
  | nil => intro n s h; exact ⟨s, rfl, h⟩
  | cons t ts ih =>
    intro n s h
    obtain ⟨s1, h1, hs1⟩ := get_sample_step B hB frames n t s h
    obtain ⟨fin, h2, hfin⟩ := ih (n + 1) s1 hs1
    refine ⟨fin, ?_, ?_⟩
    · simp only [run, h1, h2, List.length_cons]
      rw [List.range_succ_eq_map, List.map_cons, List.map_map]
      congr 2
      congr 1
      apply List.map_congr_left
      intro k _
      simp only [Function.comp]
      congr 1
      omega
    · have e : n + (t :: ts).length = n + 1 + ts.length := by
        simp only [List.length_cons]; omega
      rw [e]
      exact hfin

theorem getSamples_eq_run (B : Nat) (ts : List ℚ) :
    ∀ s : State, getSamples B ts s = (run B ts s).map Prod.fst := by
  induction ts with
  | nil => intro s; rfl
  | cons t ts ih =>
    intro s
    simp only [getSamples, run]
    cases get_sample B t s with
    | none => rfl
    | some a =>
      obtain ⟨v, s1⟩ := a
      simp only
      rw [ih s1]
      cases run B ts s1 with
      | none => rfl
      | some b => rfl

theorem block_frame (B : Nat) (hB : 0 < B) (frames : Nat → ℚ) (k : Nat) :
    (block B frames (k / B))[k % B]? = some (frames k) := by
  rw [block_getElem? B frames (k / B) (k % B) (Nat.mod_lt k hB)]
  congr 2
  rw [Nat.mul_comm]
  exact Nat.div_add_mod k B

theorem after_index (B : Nat) (hB : 0 < B) (frames : Nat → ℚ) (n : Nat) (s : State)
    (h : After B frames n s) :
    accessIndex B s = n % B ∧ s.stream.position = B * ((n + B - 1) / B) := by
  obtain ⟨_, _, h⟩ := h
  rcases h with ⟨hn, hnext, hpos⟩ | ⟨q, r, hr, hn, hnext, hpos, _⟩
  · subst hn
    unfold accessIndex
    rw [if_pos (by omega), hpos]
    have : (0 + B - 1) / B = 0 := Nat.div_eq_of_lt (by omega)
    rw [this]
    simp
  · have hq : (n + B - 1) / B = q + 1 := by
      have e : n + B - 1 = r + (q + 1) * B := by rw [hn, Nat.succ_mul]; omega
      rw [e, Nat.add_mul_div_right _ _ hB, Nat.div_eq_of_lt hr]
      omega
    rw [hq, hpos, Nat.mul_comm]
    refine ⟨?_, rfl⟩
    unfold accessIndex
    by_cases hlast : r + 1 = B
    · rw [if_pos (by omega)]
      have e : n = (q + 1) * B := by rw [hn, Nat.succ_mul]; omega
      rw [e, Nat.mul_mod_left]
    · rw [if_neg (by omega), hnext]
      have e : n = (r + 1) + q * B := by rw [hn]; omega
      rw [e, Nat.add_mul_mod_self_right, Nat.mod_eq_of_lt (by omega)]

theorem after_start (B : Nat) (frames : Nat → ℚ) : After B frames 0 (State.start B frames) :=
  ⟨rfl, by simp [State.start], Or.inl ⟨rfl, rfl, rfl⟩⟩

/-- C19: with `BUFFER_SIZE = B > 0`, no call of the microphone `get_sample` indexes
`buffer` out of bounds; call `n` (counted from 0) returns element `n mod B` of block
`n div B` of the stream; after `n` calls the stream has been read `⌈n / B⌉` times, that
is once every `B` calls starting with call 0, each read delivering the next block; and
the index at which call `n` accesses `buffer` is `n mod B`, which is below `B`. -/
theorem C19_mic_buffer_cycle (B : Nat) (frames : Nat → ℚ) (ts : List ℚ) (hB : 0 < B) :
    ∃ (vs : List ℚ) (fin : State),
      run B ts (State.start B frames) = some (vs, fin) ∧
      getSamples B ts (State.start B frames) = some vs ∧
      vs.length = ts.length ∧
      (∀ n, n < ts.length → vs[n]? = (block B frames (n / B))[n % B]?) ∧
      fin.stream.position = B * ((ts.length + B - 1) / B) ∧
      (∀ j, Pa_ReadStream { frames := frames, position := j * B } B =
        (block B frames j, { frames := frames, position := (j + 1) * B })) ∧
      accessIndex B fin = ts.length % B ∧ accessIndex B fin < B ∧ fin.buffer.length = B := by
  obtain ⟨fin, hrun, hfin⟩ := run_from B hB frames ts 0 _ (after_start B frames)
  rw [Nat.zero_add] at hfin
  obtain ⟨hidx, hpos⟩ := after_index B hB frames ts.length fin hfin
  refine ⟨_, fin, hrun, ?_, by simp, ?_, hpos, ?_, hidx, ?_, hfin.2.1⟩
  · rw [getSamples_eq_run, hrun]
    rfl
  · intro n hn
    rw [List.getElem?_map, List.getElem?_range hn, block_frame B hB frames n]
    simp
  · intro j
    exact read_block B frames j _ rfl rfl
  · rw [hidx]
    exact Nat.mod_lt _ hB

theorem C19_mic_buffer_cycle_witness :
    ∃ (vs : List ℚ) (fin : State),
      run 2 [0, 0, 0] (State.start 2 fun i => (i : ℚ) / 8) = some (vs, fin) ∧
      getSamples 2 [0, 0, 0] (State.start 2 fun i => (i : ℚ) / 8) = some vs ∧
      vs.length = [(0 : ℚ), 0, 0].length ∧
      (∀ n, n < [(0 : ℚ), 0, 0].length →
        vs[n]? = (block 2 (fun i => (i : ℚ) / 8) (n / 2))[n % 2]?) ∧
      fin.stream.position = 2 * (([(0 : ℚ), 0, 0].length + 2 - 1) / 2) ∧
      (∀ j, Pa_ReadStream { frames := fun i => (i : ℚ) / 8, position := j * 2 } 2 =
        (block 2 (fun i => (i : ℚ) / 8) j,
          { frames := fun i => (i : ℚ) / 8, position := (j + 1) * 2 })) ∧
      accessIndex 2 fin = [(0 : ℚ), 0, 0].length % 2 ∧ accessIndex 2 fin < 2 ∧
      fin.buffer.length = 2 :=
  C19_mic_buffer_cycle 2 (fun i => (i : ℚ) / 8) [0, 0, 0] (by decide)

end SoundFromMic
